import Mathlib

/-!
Verification of the maestro migration engine core: a shallow embedding of the
orchestrator (`core/migrator`) and the postgres/cockroachdb repository
implementations (`core/database`), with theorems checking the natural-language
specification against the embedded code.

Conventions of the embedding:
* `uint16` versions become `Nat` (no claim here depends on wrap-around).
* Database effects are split into a pure `World` state (the ledger table, a
  trace of executed migration/hook/rollback statements, the history-table
  existence flag, and which executor is current) and an `Oracle` assigning a
  success/failure outcome to each fallible database action (statement
  execution, ledger writes/deletes, transaction begin).
* Go `[]error` results become `List Err`; the empty list plays the role of a
  `nil` error slice.
-/

namespace Maestro

/-- Migration direction, from `core/enums` (`MIGRATION_UP` / `MIGRATION_DOWN`). -/
inductive MigrationType where
  | up
  | down
deriving DecidableEq, Repr

/-- Hook kinds, from `core/enums` (`HOOK_BEFORE`, ..., `HOOK_REPEATABLE_DOWN`). -/
inductive HookType where
  | before
  | after
  | beforeEach
  | afterEach
  | beforeVersion
  | afterVersion
  | repeatable
  | repeatableDown
deriving DecidableEq, Repr

/-- The `migrations.Migration` record. `checksum` is optional, as in the Go
struct where `Checksum *string` is only set for up migrations. -/
structure Migration where
  version : Nat
  description : String
  mtype : MigrationType
  checksum : Option String
  content : String
deriving DecidableEq, Repr

/-- The `migrations.Hook` record. -/
structure Hook where
  order : Nat
  version : Nat
  content : String
  htype : HookType
deriving DecidableEq, Repr

/-- One row of the `schema_history` ledger table. -/
structure LedgerEntry where
  version : Nat
  description : String
  checksum : Option String
  success : Bool
  executedAt : Nat
  repairedAt : Option Nat
deriving DecidableEq, Repr

/-- Errors produced by the embedded code, mirroring the `fmt.Errorf` shapes in
the source. -/
inductive Err where
  | stmt (msg : String)
  | migrationUpsert (version : Nat) (msg : String)
  | hookErr (ord : Nat) (t : HookType) (msg : String)
  | versionedHookErr (ord : Nat) (version : Nat) (t : HookType) (msg : String)
  | rollbackWrap (version : Nat) (inner : Err)
  | invalidType (t : MigrationType)
  | missingVersion (version : Nat)
  | invalidMigrationFound (version : Nat) (description : String) (checksum : Option String)
  | expectedVersion (expected : Nat) (got : Nat)
  | unsucceededMigration (version : Nat)
  | notDeleted (version : Nat)
  | beginTx (msg : String)
  | repairErr (version : Nat) (msg : String)
deriving DecidableEq, Repr

/-- Events recorded whenever a migration, hook, or rollback statement is
actually sent to the database (`ExecContext` on the script content). -/
inductive Event where
  | hookEv (t : HookType) (ord : Nat)
  | migEv (version : Nat)
  | rollbackEv (version : Nat)
deriving DecidableEq, Repr

/-- The database-visible state threaded through the embedding. `trace` keeps
the order in which migration/hook/rollback script contents were executed;
`usingTx` is true while `r.queriable` points at the open transaction. -/
structure World where
  ledger : List LedgerEntry
  hasTable : Bool
  trace : List Event
  now : Nat
  usingTx : Bool
deriving DecidableEq, Repr

/-- Failure oracle for the fallible database actions: `runStmt` is the outcome
of executing a script content, `writeLedger v` the outcome of the ledger
insert/upsert for version `v`, `deleteLedger v` the outcome of the ledger
delete for `v`, and `beginTxErr` the outcome of `BeginTx`. `none` means the
action succeeds. -/
structure Oracle where
  runStmt : String → Option String
  writeLedger : Nat → Option String
  deleteLedger : Nat → Option String
  beginTxErr : Option String

/-- The all-success oracle: every database action succeeds. -/
def Oracle.ok : Oracle := ⟨fun _ => none, fun _ => none, fun _ => none, none⟩

/-- Ledger upsert used by `ExecuteMigration`: `INSERT ... ON CONFLICT (version)
DO UPDATE SET description, md5_checksum, success, executed_at = NOW()`. An
existing row for the version is updated in place, otherwise a row is appended. -/
def upsertLedger (led : List LedgerEntry) (m : Migration) (ok : Bool) (now : Nat) :
    List LedgerEntry :=
  if led.any (fun e => e.version = m.version) then
    led.map (fun e =>
      if e.version = m.version then
        { e with description := m.description, checksum := m.checksum,
                 success := ok, executedAt := now }
      else e)
  else
    led ++ [{ version := m.version, description := m.description,
              checksum := m.checksum, success := ok, executedAt := now,
              repairedAt := none }]

/-- Maximum successful version in a ledger: `MAX(version) WHERE success = true`
with `COALESCE(..., 0)`. -/
def latestOf (led : List LedgerEntry) : Nat :=
  ((led.filter (fun e => e.success)).map (fun e => e.version)).foldl max 0

/-- The `GetLatestMigration` query of the postgres repository: 0 when the
history table does not exist, otherwise the greatest successful version. -/
def getLatestMigration (w : World) : Nat :=
  if w.hasTable then latestOf w.ledger else 0

/-- The `AssertSchemaHistoryTable` create-if-absent of the ledger table. -/
def assertSchemaHistoryTable (w : World) : World :=
  { w with hasTable := true }

/-- Insertion into an ascending list, used to read ledger versions in
`ORDER BY version ASC` order. -/
def insertAsc (v : Nat) : List Nat → List Nat
  | [] => [v]
  | x :: xs => if v ≤ x then v :: x :: xs else x :: insertAsc v xs

/-- Ledger versions read ascending, as the gap-check query does. -/
def sortedVersions (led : List LedgerEntry) : List Nat :=
  (led.map (fun e => e.version)).foldr insertAsc []

/-- The gap-check loop of `ValidateMigrations`: walk the ascending versions
with `expectedVersion` starting at 1; report `missing version expected` on a
mismatch and continue from `actual + 1`. -/
def gapErrors : Nat → List Nat → List Err
  | _, [] => []
  | expected, v :: rest =>
    (if expected ≠ v then [Err.missingVersion expected] else [])
      ++ gapErrors (v + 1) rest

/-- The drift-check query of `ValidateMigrations`: successful ledger rows whose
`(version, description, md5_checksum)` tuple is not among the local ones. -/
def driftRows (migs : List Migration) (led : List LedgerEntry) : List LedgerEntry :=
  led.filter (fun e =>
    e.success && !(migs.any (fun m =>
      m.version = e.version ∧ m.description = e.description ∧ m.checksum = e.checksum)))

/-- The postgres `ValidateMigrations`: no-op on an empty local set or a missing
history table; rejects a non-up migration; otherwise gap errors (ledger
versions ascending must run 1..N) followed by drift errors. -/
def validateMigrationsRepo (migs : List Migration) (w : World) : List Err :=
  if migs.isEmpty then []
  else if !w.hasTable then []
  else if migs.any (fun m => m.mtype ≠ MigrationType.up) then
    [Err.invalidType MigrationType.down]
  else
    gapErrors 1 (sortedVersions w.ledger)
      ++ (driftRows migs w.ledger).map
            (fun e => Err.invalidMigrationFound e.version e.description e.checksum)

/-- Walk of the local `migrations.ValidateMigrations` loop: the local up list
must carry versions `expected, expected+1, ...` in order; each mismatch reports
expected/got and the walk continues from `got + 1`. -/
def localWalk : Nat → List Migration → List Err
  | _, [] => []
  | expected, m :: rest =>
    (if m.version ≠ expected then [Err.expectedVersion expected m.version] else [])
      ++ localWalk (m.version + 1) rest

/-- The local `migrations.ValidateMigrations`, starting the walk at version 1. -/
def validateMigrationsLocal (migs : List Migration) : List Err :=
  localWalk 1 migs

/-- The `GetFailingMigrations` query: ledger rows with `success = false` (empty
when the history table is absent). -/
def getFailingMigrations (w : World) : List LedgerEntry :=
  if w.hasTable then w.ledger.filter (fun e => !e.success) else []

/-- The postgres `ExecuteMigration`: reject a non-up migration; execute the
content (recording the attempt in the trace); then always attempt the ledger
upsert with `success = (execution error == nil)`; collect the content error
and/or the upsert error. -/
def executeMigrationRepo (o : Oracle) (w : World) (m : Migration) : World × List Err :=
  if m.mtype ≠ MigrationType.up then (w, [Err.invalidType m.mtype])
  else
    let execErr := o.runStmt m.content
    let w1 := { w with trace := w.trace ++ [Event.migEv m.version] }
    match o.writeLedger m.version with
    | some msg =>
      (w1, (execErr.map Err.stmt).toList ++ [Err.migrationUpsert m.version msg])
    | none =>
      ({ w1 with ledger := upsertLedger w1.ledger m (execErr = none) w1.now },
        (execErr.map Err.stmt).toList)

/-- The postgres `ExecuteHook`: run the hook content; no ledger effect. -/
def executeHookRepo (o : Oracle) (w : World) (h : Hook) : World × Option String :=
  ({ w with trace := w.trace ++ [Event.hookEv h.htype h.order] }, o.runStmt h.content)

/-- The postgres `RollbackMigration`: reject a non-down migration; no-op
success when the version is absent from the ledger; otherwise run the content
and delete the ledger row (a failed delete leaves the row and reports the
delete error; a delete affecting zero rows would be reported, but inside the
existence guard the delete always removes the row). -/
def rollbackMigrationRepo (o : Oracle) (w : World) (m : Migration) :
    World × Option Err :=
  if m.mtype ≠ MigrationType.down then (w, some (Err.invalidType m.mtype))
  else if !(w.ledger.any (fun e => e.version = m.version)) then (w, none)
  else
    let w1 := { w with trace := w.trace ++ [Event.rollbackEv m.version] }
    match o.runStmt m.content with
    | some msg => (w1, some (Err.stmt msg))
    | none =>
      match o.deleteLedger m.version with
      | some msg => (w1, some (Err.stmt msg))
      | none =>
        ({ w1 with ledger := w1.ledger.filter (fun e => e.version ≠ m.version) }, none)

/-- Repair of one row on the postgres backend: upsert forcing `success = true`
and the local description/checksum; `repaired_at` is stamped with now exactly
when the stored description or checksum differ, else preserved. -/
def repairRowPg (led : List LedgerEntry) (m : Migration) (now : Nat) : List LedgerEntry :=
  if led.any (fun e => e.version = m.version) then
    led.map (fun e =>
      if e.version = m.version then
        { e with description := m.description, checksum := m.checksum,
                 success := true,
                 repairedAt :=
                   if m.description ≠ e.description ∨ m.checksum ≠ e.checksum then
                     some now
                   else e.repairedAt }
      else e)
  else
    led ++ [{ version := m.version, description := m.description,
              checksum := m.checksum, success := true, executedAt := now,
              repairedAt := some now }]

/-- Repair of one row on the cockroachdb backend: the insert branch matches
postgres, but the `ON CONFLICT ... DO UPDATE` sets only description, checksum,
and (conditionally) `repaired_at`; it does not set `success`. -/
def repairRowCr (led : List LedgerEntry) (m : Migration) (now : Nat) : List LedgerEntry :=
  if led.any (fun e => e.version = m.version) then
    led.map (fun e =>
      if e.version = m.version then
        { e with description := m.description, checksum := m.checksum,
                 repairedAt :=
                   if m.description ≠ e.description ∨ m.checksum ≠ e.checksum then
                     some now
                   else e.repairedAt }
      else e)
  else
    led ++ [{ version := m.version, description := m.description,
              checksum := m.checksum, success := true, executedAt := now,
              repairedAt := some now }]

/-- The postgres `Repair`: no-op when the history table is absent; otherwise
repair each local row, collecting per-row write errors and continuing. -/
def repairPg (o : Oracle) (w : World) (migs : List Migration) : World × List Err :=
  if !w.hasTable then (w, [])
  else
    migs.foldl (fun acc m =>
      match o.writeLedger m.version with
      | some msg => (acc.1, acc.2 ++ [Err.repairErr m.version msg])
      | none =>
        ({ acc.1 with ledger := repairRowPg acc.1.ledger m acc.1.now }, acc.2))
      (w, [])

/-- The cockroachdb `Repair`: same driver loop as postgres but with the
cockroachdb upsert. -/
def repairCr (o : Oracle) (w : World) (migs : List Migration) : World × List Err :=
  if !w.hasTable then (w, [])
  else
    migs.foldl (fun acc m =>
      match o.writeLedger m.version with
      | some msg => (acc.1, acc.2 ++ [Err.repairErr m.version msg])
      | none =>
        ({ acc.1 with ledger := repairRowCr acc.1.ledger m acc.1.now }, acc.2))
      (w, [])

/-- The per-run migration configuration (`conf.MigrationConfig`), restricted to
the fields the orchestrator reads. -/
structure MigConfig where
  down : Bool
  validate : Bool
  inTransaction : Bool
  destination : Option Nat
  force : Bool
  useRepeatable : Bool
  useBefore : Bool
  useAfter : Bool
  useBeforeEach : Bool
  useAfterEach : Bool
  useBeforeVersion : Bool
  useAfterVersion : Bool
deriving DecidableEq, Repr

/-- Hooks grouped by kind, as produced by the loader
(`map[enums.HookType][]*migrations.Hook`). -/
def HooksMap := HookType → List Hook

/-- The orchestrator's `executeHooks`: run each hook in order; on an error,
wrap it with the hook's order and type; without `Force`, stop at the first
error. -/
def executeHooks (o : Oracle) (force : Bool) : World → List Hook → World × List Err
  | w, [] => (w, [])
  | w, h :: rest =>
    let step := executeHookRepo o w h
    match step.2 with
    | none => executeHooks o force step.1 rest
    | some msg =>
      if force then
        let r := executeHooks o force step.1 rest
        (r.1, Err.hookErr h.order h.htype msg :: r.2)
      else (step.1, [Err.hookErr h.order h.htype msg])

/-- The orchestrator's `executeVersionedHooks`: like `executeHooks` but only
hooks whose version equals the migration currently executing are run. -/
def executeVersionedHooks (o : Oracle) (force : Bool) (v : Nat) :
    World → List Hook → World × List Err
  | w, [] => (w, [])
  | w, h :: rest =>
    if v = h.version then
      let step := executeHookRepo o w h
      match step.2 with
      | none => executeVersionedHooks o force v step.1 rest
      | some msg =>
        if force then
          let r := executeVersionedHooks o force v step.1 rest
          (r.1, Err.versionedHookErr h.order h.version h.htype msg :: r.2)
        else (step.1, [Err.versionedHookErr h.order h.version h.htype msg])
    else executeVersionedHooks o force v w rest

/-- The repeated `append errors, stop unless Force` block of the orchestrator:
given an accumulator `(world, errors, aborted)`, run one phase unless already
aborted; a phase producing errors appends them and aborts exactly when `Force`
is off. -/
def phaseStep (force : Bool) (acc : World × List Err × Bool)
    (run : World → World × List Err) : World × List Err × Bool :=
  match acc with
  | (w, errs, true) => (w, errs, true)
  | (w, errs, false) =>
    let r := run w
    if r.2.isEmpty then (r.1, errs, false)
    else (r.1, errs ++ r.2, !force)

/-- The migration loop of `migrateUp`: skip migrations outside
`[fromV, toV]`; for each one in range run Repeatable hooks (only when the
version exceeds 1), BeforeEach, matching BeforeVersion hooks, the migration
itself, matching AfterVersion hooks, and AfterEach, each under the
force/abort discipline. -/
def upLoop (o : Oracle) (cfg : MigConfig) (hooks : HooksMap) (fromV toV : Nat) :
    World × List Err × Bool → List Migration → World × List Err × Bool
  | acc, [] => acc
  | acc, m :: rest =>
    if m.version < fromV ∨ m.version > toV then
      upLoop o cfg hooks fromV toV acc rest
    else
      let acc := if cfg.useRepeatable ∧ m.version > 1 then
        phaseStep cfg.force acc
          (fun w => executeHooks o cfg.force w (hooks HookType.repeatable)) else acc
      let acc := if cfg.useBeforeEach then
        phaseStep cfg.force acc
          (fun w => executeHooks o cfg.force w (hooks HookType.beforeEach)) else acc
      let acc := if cfg.useBeforeVersion then
        phaseStep cfg.force acc
          (fun w => executeVersionedHooks o cfg.force m.version w (hooks HookType.beforeVersion)) else acc
      let acc := phaseStep cfg.force acc (fun w => executeMigrationRepo o w m)
      let acc := if cfg.useAfterVersion then
        phaseStep cfg.force acc
          (fun w => executeVersionedHooks o cfg.force m.version w (hooks HookType.afterVersion)) else acc
      let acc := if cfg.useAfterEach then
        phaseStep cfg.force acc
          (fun w => executeHooks o cfg.force w (hooks HookType.afterEach)) else acc
      upLoop o cfg hooks fromV toV acc rest

/-- The orchestrator's `migrateUp`: Before hooks once, the migration loop over
`[fromV, toV]`, then After hooks once; the error list is returned (empty for
`nil`). -/
def migrateUp (o : Oracle) (cfg : MigConfig) (w : World) (migs : List Migration)
    (hooks : HooksMap) (fromV toV : Nat) : World × List Err :=
  let acc : World × List Err × Bool := (w, [], false)
  let acc := if cfg.useBefore then
    phaseStep cfg.force acc
      (fun w => executeHooks o cfg.force w (hooks HookType.before)) else acc
  let acc := upLoop o cfg hooks fromV toV acc migs
  let acc := if cfg.useAfter then
    phaseStep cfg.force acc
      (fun w => executeHooks o cfg.force w (hooks HookType.after)) else acc
  (acc.1, acc.2.1)

/-- The migration loop of `migrateDown`: skip migrations outside
`(toV, fromV]`; for each one in range run the rollback (wrapping its error with
the version) and then RepeatableDown hooks, the latter only while the version
exceeds `toV + 1`. -/
def downLoop (o : Oracle) (cfg : MigConfig) (hooks : HooksMap) (fromV toV : Nat) :
    World × List Err × Bool → List Migration → World × List Err × Bool
  | acc, [] => acc
  | acc, m :: rest =>
    if fromV < m.version ∨ toV ≥ m.version then
      downLoop o cfg hooks fromV toV acc rest
    else
      let acc := phaseStep cfg.force acc (fun w =>
        let r := rollbackMigrationRepo o w m
        (r.1, (r.2.map (Err.rollbackWrap m.version)).toList))
      let acc := if cfg.useRepeatable ∧ m.version > toV + 1 then
        phaseStep cfg.force acc
          (fun w => executeHooks o cfg.force w (hooks HookType.repeatableDown)) else acc
      downLoop o cfg hooks fromV toV acc rest

/-- The orchestrator's `migrateDown`. -/
def migrateDown (o : Oracle) (cfg : MigConfig) (w : World) (migs : List Migration)
    (hooks : HooksMap) (fromV toV : Nat) : World × List Err :=
  let acc := downLoop o cfg hooks fromV toV (w, [], false) migs
  (acc.1, acc.2.1)

/-- Result of `DoInTransaction`, recording besides the final state whether the
transaction was committed and whether `tx.Rollback()` was invoked (the deferred
rollback always runs, also after a successful commit, where it is a no-op). -/
structure TxResult where
  world : World
  errs : List Err
  committed : Bool
  rollbackInvoked : Bool
  rollbackInvokedAfterCommit : Bool
deriving DecidableEq, Repr

/-- The postgres `DoInTransaction`: begin a transaction, route statements
through it, run the callback; commit exactly when the callback returns no
error, otherwise the deferred rollback discards the callback's ledger writes;
the deferred block always restores the plain-connection executor and always
invokes `tx.Rollback()` — after a commit that invocation has no effect. -/
def doInTransaction (o : Oracle) (w : World) (fn : World → World × List Err) : TxResult :=
  match o.beginTxErr with
  | some msg => { world := w, errs := [Err.beginTx msg], committed := false,
                  rollbackInvoked := false, rollbackInvokedAfterCommit := false }
  | none =>
    let r := fn { w with usingTx := true }
    if r.2.isEmpty then
      { world := { r.1 with usingTx := false }, errs := [], committed := true,
        rollbackInvoked := true, rollbackInvokedAfterCommit := true }
    else
      { world := { r.1 with ledger := w.ledger, usingTx := false }, errs := r.2,
        committed := false, rollbackInvoked := true,
        rollbackInvokedAfterCommit := false }

/-- Last version of a migration list (the destination default for up runs is
the highest local up version, i.e. the version of the last list element). -/
def lastVersion (migs : List Migration) : Nat :=
  ((migs.getLast?).map (fun m => m.version)).getD 0

/-- Destination actually used by a run: the configured one if set, otherwise 0
for down runs and the highest local up version for up runs. -/
def resolvedDestination (cfg : MigConfig) (upMigs : List Migration) : Nat :=
  match cfg.destination with
  | some d => d
  | none => if cfg.down then 0 else lastVersion upMigs

/-- Result of a `Migrate()` call: the configuration (which `Migrate` mutates in
place when it resolves an unset destination), the final database state, and the
collected errors. -/
structure MigrateResult where
  config : MigConfig
  world : World
  errs : List Err
deriving DecidableEq, Repr

/-- The tail of `Migrate()` after validation: no-op success when the ledger is
already at the destination or when the destination lies on the wrong side of
`latest`; otherwise run the chosen direction, inside `DoInTransaction` exactly
when the transaction flag is set. -/
def migrateRun (o : Oracle) (cfg : MigConfig) (w : World)
    (upMigs downMigs : List Migration) (hooks : HooksMap) (latest dest : Nat) :
    MigrateResult :=
  if latest = dest then ⟨cfg, w, []⟩
  else if !cfg.down && dest < latest then ⟨cfg, w, []⟩
  else if cfg.down && dest > latest then ⟨cfg, w, []⟩
  else
    let doMigrate : World → World × List Err := fun w =>
      if cfg.down then migrateDown o cfg w downMigs hooks latest dest
      else migrateUp o cfg w upMigs hooks (latest + 1) dest
    if cfg.inTransaction then
      let r := doInTransaction o w doMigrate
      ⟨cfg, r.world, r.errs⟩
    else
      let r := doMigrate w
      ⟨cfg, r.1, r.2⟩

/-- The orchestrator's `Migrate()` under an already-acquired lock, with the
loader's output (`upMigs`, `downMigs`, `hooks`) given and loading successful:
assert the history table, read the latest version, return early when the
requested direction has no migrations, resolve an unset destination by writing
it into the configuration, validate when enabled (pre-existing failing rows,
then local contiguity, then remote gap/drift), and run. -/
def migrate (o : Oracle) (cfg : MigConfig) (w : World)
    (upMigs downMigs : List Migration) (hooks : HooksMap) : MigrateResult :=
  let w := assertSchemaHistoryTable w
  let latest := getLatestMigration w
  if (!cfg.down && upMigs.isEmpty) || (cfg.down && downMigs.isEmpty) then
    ⟨cfg, w, []⟩
  else
    let cfg := if !cfg.down && cfg.destination = none then
      { cfg with destination := some (lastVersion upMigs) } else cfg
    let cfg := if cfg.down && cfg.destination = none then
      { cfg with destination := some 0 } else cfg
    let dest := cfg.destination.getD 0
    if cfg.validate then
      let failing := getFailingMigrations w
      if !failing.isEmpty then
        ⟨cfg, w, failing.map (fun e => Err.unsucceededMigration e.version)⟩
      else
        let lerrs := validateMigrationsLocal upMigs
        if !lerrs.isEmpty then ⟨cfg, w, lerrs⟩
        else
          let rerrs := validateMigrationsRepo upMigs w
          if !rerrs.isEmpty then ⟨cfg, w, rerrs⟩
          else migrateRun o cfg w upMigs downMigs hooks latest dest
    else migrateRun o cfg w upMigs downMigs hooks latest dest

/-- One elementary step of an orchestration run: a hook execution, a versioned
hook execution, a migration execution, or a rollback. -/
inductive Step where
  | hookS (h : Hook)
  | vhookS (h : Hook)
  | migS (m : Migration)
  | rollbackS (m : Migration)
deriving DecidableEq, Repr

/-- Errors a step produces, after the wrapping the orchestrator applies. Only
rollback steps consult the world (the ledger existence probe). -/
def stepErrs (o : Oracle) (w : World) : Step → List Err
  | Step.hookS h => ((o.runStmt h.content).map (Err.hookErr h.order h.htype)).toList
  | Step.vhookS h =>
    ((o.runStmt h.content).map (Err.versionedHookErr h.order h.version h.htype)).toList
  | Step.migS m =>
    if m.mtype ≠ MigrationType.up then [Err.invalidType m.mtype]
    else ((o.runStmt m.content).map Err.stmt).toList
      ++ ((o.writeLedger m.version).map (Err.migrationUpsert m.version)).toList
  | Step.rollbackS m => ((rollbackMigrationRepo o w m).2.map (Err.rollbackWrap m.version)).toList

/-- State effect of one step. -/
def applyStep (o : Oracle) (w : World) : Step → World
  | Step.hookS h => (executeHookRepo o w h).1
  | Step.vhookS h => (executeHookRepo o w h).1
  | Step.migS m => (executeMigrationRepo o w m).1
  | Step.rollbackS m => (rollbackMigrationRepo o w m).1

/-- The sequential step runner with the orchestrator's force discipline: a step
producing errors stops the run (flag `true`) unless `force` is set, in which
case the remaining steps still execute and errors accumulate in order. -/
def runSteps (o : Oracle) (force : Bool) : World → List Step → World × List Err × Bool
  | w, [] => (w, [], false)
  | w, s :: rest =>
    let es := stepErrs o w s
    let w1 := applyStep o w s
    if es.isEmpty then runSteps o force w1 rest
    else if force then
      let r := runSteps o force w1 rest
      (r.1, es ++ r.2.1, r.2.2)
    else (w1, es, true)

/-- Steps of one plain-hook phase. -/
def hookSteps (hs : List Hook) : List Step := hs.map Step.hookS

/-- Steps of one versioned-hook phase for the migration version `v`: only
matching hooks are executed at all. -/
def vhookSteps (v : Nat) (hs : List Hook) : List Step :=
  (hs.filter (fun h => v = h.version)).map Step.vhookS

/-- Steps surrounding one up migration, mirroring the body of the `migrateUp`
loop: Repeatable hooks only when the version exceeds 1, then BeforeEach,
BeforeVersion, the migration, AfterVersion, AfterEach. -/
def upMigSteps (cfg : MigConfig) (hooks : HooksMap) (m : Migration) : List Step :=
  (if cfg.useRepeatable ∧ m.version > 1 then hookSteps (hooks HookType.repeatable) else [])
    ++ (if cfg.useBeforeEach then hookSteps (hooks HookType.beforeEach) else [])
    ++ (if cfg.useBeforeVersion then vhookSteps m.version (hooks HookType.beforeVersion) else [])
    ++ [Step.migS m]
    ++ (if cfg.useAfterVersion then vhookSteps m.version (hooks HookType.afterVersion) else [])
    ++ (if cfg.useAfterEach then hookSteps (hooks HookType.afterEach) else [])

/-- The full step sequence of a `migrateUp` run. -/
def upSteps (cfg : MigConfig) (migs : List Migration) (hooks : HooksMap)
    (fromV toV : Nat) : List Step :=
  (if cfg.useBefore then hookSteps (hooks HookType.before) else [])
    ++ migs.flatMap (fun m =>
        if m.version < fromV ∨ m.version > toV then [] else upMigSteps cfg hooks m)
    ++ (if cfg.useAfter then hookSteps (hooks HookType.after) else [])

/-- Steps of one down migration, mirroring the body of the `migrateDown` loop:
the rollback, then RepeatableDown hooks only while the version exceeds
`toV + 1`. -/
def downMigSteps (cfg : MigConfig) (hooks : HooksMap) (toV : Nat) (m : Migration) :
    List Step :=
  Step.rollbackS m ::
    (if cfg.useRepeatable ∧ m.version > toV + 1 then hookSteps (hooks HookType.repeatableDown) else [])

/-- The full step sequence of a `migrateDown` run. -/
def downSteps (cfg : MigConfig) (migs : List Migration) (hooks : HooksMap)
    (fromV toV : Nat) : List Step :=
  migs.flatMap (fun m =>
    if fromV < m.version ∨ toV ≥ m.version then [] else downMigSteps cfg hooks toV m)

/-- Event a step appends to the trace when its statement is actually sent (a
migration step of the wrong type, or a rollback of an absent version, sends
nothing). -/
def stepEvent : Step → Event
  | Step.hookS h => Event.hookEv h.htype h.order
  | Step.vhookS h => Event.hookEv h.htype h.order
  | Step.migS m => Event.migEv m.version
  | Step.rollbackS m => Event.rollbackEv m.version

/-- Repeatable-hook event recogniser. -/
def isRepEv : Event → Bool
  | Event.hookEv HookType.repeatable _ => true
  | _ => false

/-- RepeatableDown-hook event recogniser. -/
def isRepDownEv : Event → Bool
  | Event.hookEv HookType.repeatableDown _ => true
  | _ => false

/-- Migration-execution event recogniser. -/
def isMigEv : Event → Bool
  | Event.migEv _ => true
  | _ => false

/-- Rollback-execution event recogniser. -/
def isRollbackEv : Event → Bool
  | Event.rollbackEv _ => true
  | _ => false

/-- Whether every `p`-event of the trace is followed by a strictly later
`q`-event; its negation at `p := isRepEv`, `q := isMigEv` means some Repeatable
hook fired after the last migration of the run. -/
def eachFollowedBy (p q : Event → Bool) : List Event → Bool
  | [] => true
  | e :: rest => (!p e || rest.any q) && eachFollowedBy p q rest

/-- Whether some `p`-event occurs strictly before the first `q`-event of the
trace; at `p := isRepEv`, `q := isMigEv` it means a Repeatable hook fired
before the first migration of the run. -/
def someBeforeFirst (p q : Event → Bool) : List Event → Bool
  | [] => false
  | e :: rest => if q e then false else if p e then true else someBeforeFirst p q rest

/-- Whether every `p`-event of the trace has a strictly earlier `q`-event;
`seen` records whether a `q`-event has occurred already. -/
def eachPrecededBy (p q : Event → Bool) (seen : Bool) : List Event → Bool
  | [] => true
  | e :: rest => (!p e || seen) && eachPrecededBy p q (seen || q e) rest

/-- First migration of the list that an up run over `[fromV, toV]` executes. -/
def firstInRange (migs : List Migration) (fromV toV : Nat) : Option Migration :=
  migs.find? (fun m => decide (fromV ≤ m.version) && decide (m.version ≤ toV))

/-- Hooks maps produced by the loader key each hook list by the hook's own
type. -/
def HooksMap.WF (hooks : HooksMap) : Prop :=
  ∀ t : HookType, ∀ h ∈ hooks t, h.htype = t

/-- Accumulator-level view of `runSteps`: skip everything when already
aborted, otherwise run the steps and append their errors. The orchestrator's
chains of `phaseStep` blocks are proved equal to `accRun` over the
corresponding step lists. -/
def accRun (o : Oracle) (force : Bool) (acc : World × List Err × Bool)
    (steps : List Step) : World × List Err × Bool :=
  match acc with
  | (w, errs, true) => (w, errs, true)
  | (w, errs, false) =>
    let r := runSteps o force w steps
    (r.1, errs ++ r.2.1, r.2.2)

/-- Steps that append exactly their event to the trace when applied: hook
steps always do, a migration step does when its migration really is an up
migration, and a rollback's event depends on the ledger, so it is excluded. -/
def emitsEvent : Step → Prop
  | Step.hookS _ => True
  | Step.vhookS _ => True
  | Step.migS m => m.mtype = MigrationType.up
  | Step.rollbackS _ => False

/-- Trace events of one plain-hook phase. -/
def hookEvents (hs : List Hook) : List Event :=
  hs.map (fun h => Event.hookEv h.htype h.order)

/-- Trace events of one up-migration block in a run where every statement
succeeds. -/
def upBlockEvents (cfg : MigConfig) (hooks : HooksMap) (m : Migration) : List Event :=
  (if cfg.useRepeatable ∧ m.version > 1 then hookEvents (hooks HookType.repeatable) else [])
    ++ (if cfg.useBeforeEach then hookEvents (hooks HookType.beforeEach) else [])
    ++ (if cfg.useBeforeVersion then
          hookEvents ((hooks HookType.beforeVersion).filter (fun h => m.version = h.version))
        else [])
    ++ [Event.migEv m.version]
    ++ (if cfg.useAfterVersion then
          hookEvents ((hooks HookType.afterVersion).filter (fun h => m.version = h.version))
        else [])
    ++ (if cfg.useAfterEach then hookEvents (hooks HookType.afterEach) else [])

/-- Trace events of a whole `migrateUp` run where every statement succeeds. -/
def upRunEvents (cfg : MigConfig) (migs : List Migration) (hooks : HooksMap)
    (fromV toV : Nat) : List Event :=
  (if cfg.useBefore then hookEvents (hooks HookType.before) else [])
    ++ migs.flatMap (fun m =>
        if m.version < fromV ∨ m.version > toV then [] else upBlockEvents cfg hooks m)
    ++ (if cfg.useAfter then hookEvents (hooks HookType.after) else [])

/-- Ledger produced by a `migrateUp` run where every statement succeeds: one
upsert with `success = true` per in-range migration, in list order. -/
def upRunLedger (led : List LedgerEntry) (migs : List Migration)
    (now fromV toV : Nat) : List LedgerEntry :=
  migs.foldl (fun led m =>
    if m.version < fromV ∨ m.version > toV then led else upsertLedger led m true now) led

/-- Trace events of one down-migration block in a run where every statement
succeeds and the rolled-back version is present in the ledger. -/
def downBlockEvents (cfg : MigConfig) (hooks : HooksMap) (toV : Nat) (m : Migration) :
    List Event :=
  Event.rollbackEv m.version ::
    (if cfg.useRepeatable ∧ m.version > toV + 1 then hookEvents (hooks HookType.repeatableDown)
     else [])

/-- Trace events of a whole `migrateDown` run where every statement succeeds
and every in-range version is present in the ledger. -/
def downRunEvents (cfg : MigConfig) (migs : List Migration) (hooks : HooksMap)
    (fromV toV : Nat) : List Event :=
  migs.flatMap (fun m =>
    if fromV < m.version ∨ toV ≥ m.version then [] else downBlockEvents cfg hooks toV m)

/-- Ledger produced by a clean `migrateDown` run: the row of every in-range
migration is deleted. -/
def downRunLedger (led : List LedgerEntry) (migs : List Migration)
    (fromV toV : Nat) : List LedgerEntry :=
  migs.foldl (fun led m =>
    if fromV < m.version ∨ toV ≥ m.version then led
    else led.filter (fun e => e.version ≠ m.version)) led

/-- Ledger row written for a migration in a clean run. -/
def cleanEntry (now : Nat) (m : Migration) : LedgerEntry :=
  { version := m.version, description := m.description, checksum := m.checksum,
    success := true, executedAt := now, repairedAt := none }

/-- A fresh world over a given ledger: history table present, empty trace. -/
def mkWorld (led : List LedgerEntry) : World :=
  { ledger := led, hasTable := true, trace := [], now := 5, usingTx := false }

/-- A successful ledger row for a version, with fixed description/checksum. -/
def okRow (v : Nat) : LedgerEntry :=
  { version := v, description := "d", checksum := some "c",
    success := true, executedAt := 0, repairedAt := none }

/-- A failed ledger row for a version. -/
def failRow (v : Nat) : LedgerEntry :=
  { version := v, description := "d", checksum := some "c",
    success := false, executedAt := 0, repairedAt := none }

/-- A local up migration for a version matching `okRow v`. -/
def upMig (v : Nat) : Migration :=
  { version := v, description := "d", mtype := MigrationType.up,
    checksum := some "c", content := "s" }

/-- A local down migration for a version. -/
def downMig (v : Nat) : Migration :=
  { version := v, description := "d", mtype := MigrationType.down,
    checksum := none, content := "t" }

/-- The empty hooks map. -/
def noHooks : HooksMap := fun _ => []

/-- A hooks map with a single Repeatable hook and nothing else. -/
def repHooks : HooksMap := fun t =>
  match t with
  | HookType.repeatable => [{ order := 1, version := 0, content := "rep sql",
                              htype := HookType.repeatable }]
  | _ => []

/-- A configuration template: up direction, no validation, no transaction, no
force, all hook kinds enabled. -/
def baseCfg : MigConfig :=
  { down := false, validate := false, inTransaction := false, destination := none,
    force := false, useRepeatable := true, useBefore := true, useAfter := true,
    useBeforeEach := true, useAfterEach := true, useBeforeVersion := true,
    useAfterVersion := true }

/-- Steps whose error outcome does not consult the world (everything except a
rollback, whose existence probe reads the ledger). -/
def noRollback : Step → Prop
  | Step.rollbackS _ => False
  | _ => True

/-- Missing-version error recogniser, used to separate the gap-check errors of
`ValidateMigrations` from its drift errors. -/
def isMissingErr : Err → Bool
  | Err.missingVersion _ => true
  | _ => false

theorem upsertLedger_version_success (led : List LedgerEntry) (m : Migration)
    (ok : Bool) (now : Nat) :
    ∀ e ∈ upsertLedger led m ok now, e.version = m.version → e.success = ok := by
  intro e he hv
  by_cases hp : led.any (fun e => e.version = m.version)
  · rw [upsertLedger, if_pos hp] at he
    obtain ⟨x, _, hfx⟩ := List.mem_map.mp he
    by_cases hxv : x.version = m.version
    · rw [if_pos hxv] at hfx
      subst hfx
      rfl
    · rw [if_neg hxv] at hfx
      subst hfx
      exact absurd hv hxv
  · rw [upsertLedger, if_neg hp] at he
    rcases List.mem_append.mp he with h | h
    · exact absurd (List.any_eq_true.mpr ⟨e, h, by simpa using hv⟩) hp
    · have hs := List.mem_singleton.mp h
      subst hs
      rfl

theorem upsertLedger_count (led : List LedgerEntry) (m : Migration) (ok : Bool)
    (now : Nat) (h1 : led.countP (fun e => e.version = m.version) = 1) :
    (upsertLedger led m ok now).countP (fun e => e.version = m.version) = 1
      ∧ (upsertLedger led m ok now).length = led.length := by
  have hp : led.any (fun e => decide (e.version = m.version)) = true := by
    rcases List.countP_pos_iff.mp (by omega :
      0 < led.countP (fun e => decide (e.version = m.version))) with ⟨a, ha, hpa⟩
    exact List.any_eq_true.mpr ⟨a, ha, hpa⟩
  unfold upsertLedger
  simp only [hp, if_pos]
  constructor
  · rw [List.countP_map]
    rw [← h1]
    apply List.countP_congr
    intro e _
    by_cases hv : e.version = m.version <;> simp [Function.comp, hv]
  · exact List.length_map _ _

/-- C4: for an up migration, `ExecuteMigration` attempts the ledger upsert even
when the content execution fails (the ledger is updated whenever the write
succeeds, and only a failing write leaves it unchanged); the upserted row's
success flag equals whether the content execution succeeded; a pre-existing row
for the version is updated in place rather than duplicated; and the error list
contains the content error and/or the write error exactly when either occurred,
being empty exactly when both succeeded. -/
theorem executeMigration_upsert_success_errors (o : Oracle) (w : World)
    (m : Migration) (hty : m.mtype = MigrationType.up) :
    ((o.writeLedger m.version = none →
        (executeMigrationRepo o w m).1.ledger
          = upsertLedger w.ledger m (o.runStmt m.content = none) w.now)
      ∧ (∀ msg, o.writeLedger m.version = some msg →
          (executeMigrationRepo o w m).1.ledger = w.ledger))
    ∧ (∀ e ∈ (executeMigrationRepo o w m).1.ledger, e.version = m.version →
        o.writeLedger m.version = none →
        e.success = (o.runStmt m.content = none : Bool))
    ∧ (w.ledger.countP (fun e => e.version = m.version) = 1 →
        (executeMigrationRepo o w m).1.ledger.countP (fun e => e.version = m.version) = 1
          ∧ (executeMigrationRepo o w m).1.ledger.length = w.ledger.length)
    ∧ (∀ msg, o.runStmt m.content = some msg ↔ Err.stmt msg ∈ (executeMigrationRepo o w m).2)
    ∧ (∀ msg, o.writeLedger m.version = some msg ↔
        Err.migrationUpsert m.version msg ∈ (executeMigrationRepo o w m).2)
    ∧ ((executeMigrationRepo o w m).2 = []
        ↔ o.runStmt m.content = none ∧ o.writeLedger m.version = none) := by
  cases hw : o.writeLedger m.version with
  | some msg =>
    have hred : executeMigrationRepo o w m
        = ({ w with trace := w.trace ++ [Event.migEv m.version] },
           ((o.runStmt m.content).map Err.stmt).toList
             ++ [Err.migrationUpsert m.version msg]) := by
      simp [executeMigrationRepo, hty, hw]
    rw [hred]
    refine ⟨⟨?_, fun _ _ => rfl⟩, ?_, ?_, ?_, ?_, ?_⟩
    · intro hnone
      cases hnone
    · intro e _ _ hnone
      cases hnone
    · intro h1
      exact ⟨h1, rfl⟩
    · intro msg2
      cases hr : o.runStmt m.content <;> simp [eq_comm]
    · intro msg2
      cases hr : o.runStmt m.content <;> simp [eq_comm]
    · cases hr : o.runStmt m.content <;> simp
  | none =>
    have hred : executeMigrationRepo o w m
        = ({ w with trace := w.trace ++ [Event.migEv m.version], ledger := upsertLedger w.ledger m (o.runStmt m.content = none) w.now },
           ((o.runStmt m.content).map Err.stmt).toList) := by
      simp [executeMigrationRepo, hty, hw]
    rw [hred]
    refine ⟨⟨fun _ => rfl, ?_⟩, ?_, ?_, ?_, ?_, ?_⟩
    · intro msg h
      cases h
    · intro e he hv _
      exact upsertLedger_version_success _ _ _ _ e he hv
    · intro h1
      exact upsertLedger_count _ _ _ _ h1
    · intro msg2
      cases hr : o.runStmt m.content <;> simp [eq_comm]
    · intro msg2
      cases hr : o.runStmt m.content <;> simp
    · cases hr : o.runStmt m.content <;> simp

theorem executeMigration_upsert_success_errors_witness :
    (upMig 1).mtype = MigrationType.up
      ∧ ((executeMigrationRepo Oracle.ok (mkWorld []) (upMig 1)).2 = []
          ↔ Oracle.ok.runStmt (upMig 1).content = none
              ∧ Oracle.ok.writeLedger (upMig 1).version = none) :=
  ⟨rfl, (executeMigration_upsert_success_errors Oracle.ok (mkWorld []) (upMig 1)
    rfl).2.2.2.2.2⟩

/-- C7: the two backends' `Repair` implementations disagree. On a ledger whose
row for version 1 has `success = false` and already matches the local
description and checksum, the postgres `Repair` forces the row to
`success = true` while the cockroachdb `Repair`, whose conflict branch does not
set `success`, leaves it `false`; the resulting ledgers differ. -/
theorem repair_backends_diverge :
    (repairPg Oracle.ok (mkWorld [failRow 1]) [upMig 1]).1.ledger
        = [{ failRow 1 with success := true }]
      ∧ (repairCr Oracle.ok (mkWorld [failRow 1]) [upMig 1]).1.ledger
          = [failRow 1]
      ∧ (repairPg Oracle.ok (mkWorld [failRow 1]) [upMig 1]).1.ledger
          ≠ (repairCr Oracle.ok (mkWorld [failRow 1]) [upMig 1]).1.ledger := by
  refine ⟨?_, ?_, ?_⟩ <;> decide

/-- C5 counterexample: with the contiguous local set 1..7 and ledger versions
`{1, 5, 7}`, version 3 is absent from the contiguous run, yet
`ValidateMigrations` reports no missing-version error for 3 (nor for 4): the
loop reports one error per gap, for the first missing version of that gap. -/
theorem validate_gaps_counterexample :
    3 ∉ sortedVersions (mkWorld [okRow 1, okRow 5, failRow 7]).ledger
      ∧ Err.missingVersion 3
          ∉ validateMigrationsRepo
              [upMig 1, upMig 2, upMig 3, upMig 4, upMig 5, upMig 6, upMig 7]
              (mkWorld [okRow 1, okRow 5, failRow 7])
      ∧ Err.missingVersion 4
          ∉ validateMigrationsRepo
              [upMig 1, upMig 2, upMig 3, upMig 4, upMig 5, upMig 6, upMig 7]
              (mkWorld [okRow 1, okRow 5, failRow 7]) := by
  refine ⟨?_, ?_, ?_⟩ <;> decide

theorem gapErrors_all_missing (a : Nat) (vs : List Nat) :
    (gapErrors a vs).filter isMissingErr = gapErrors a vs := by
  induction vs generalizing a with
  | nil => rfl
  | cons v rest ih =>
    by_cases h : a = v <;> simp [gapErrors, h, isMissingErr, ih]

theorem drift_errors_not_missing (l : List LedgerEntry) :
    (l.map (fun e => Err.invalidMigrationFound e.version e.description e.checksum)).filter
        isMissingErr = [] := by
  induction l with
  | nil => rfl
  | cons e rest ih => simp [isMissingErr, ih]

theorem insertAsc_length (v : Nat) (l : List Nat) :
    (insertAsc v l).length = l.length + 1 := by
  induction l with
  | nil => rfl
  | cons x xs ih => by_cases h : v ≤ x <;> simp [insertAsc, h, ih]

theorem sortedVersions_length (led : List LedgerEntry) :
    (sortedVersions led).length = led.length := by
  unfold sortedVersions
  rw [← List.length_map led (fun e => e.version)]
  generalize (led.map fun e => e.version) = vs
  induction vs with
  | nil => rfl
  | cons v rest ih => simp [List.foldr_cons, insertAsc_length, ih]

theorem gapErrors_nil_iff (a : Nat) (vs : List Nat) :
    gapErrors a vs = [] ↔ vs = List.range' a vs.length := by
  induction vs generalizing a with
  | nil => simp [gapErrors]
  | cons v rest ih =>
    rw [List.length_cons, List.range'_succ]
    by_cases h : a = v
    · subst h
      simp [gapErrors, ih]
    · simp [gapErrors, h]
      intro hv
      exact absurd hv.symm h

/-- C5 amended: the gap check reports one missing-version error per gap, naming
the first absent version of that gap, and passes exactly when the ascending
ledger versions form the contiguous run 1..N; on the contiguous local set 1..7
and ledger versions `{1, 5, 7}` it reports missing versions 2 and 6 (not every
absent integer). -/
theorem validateMigrations_gap_characterization :
    (validateMigrationsRepo
          [upMig 1, upMig 2, upMig 3, upMig 4, upMig 5, upMig 6, upMig 7]
          (mkWorld [okRow 1, okRow 5, failRow 7])
        = [Err.missingVersion 2, Err.missingVersion 6])
      ∧ ∀ (migs : List Migration) (w : World), migs ≠ [] →
          (∀ m ∈ migs, m.mtype = MigrationType.up) → w.hasTable = true →
          ((validateMigrationsRepo migs w).filter isMissingErr
              = gapErrors 1 (sortedVersions w.ledger)
            ∧ ((validateMigrationsRepo migs w).filter isMissingErr = []
                ↔ sortedVersions w.ledger = List.range' 1 w.ledger.length)) := by
  constructor
  · decide
  · intro migs w hne hty hht
    have hanyf : migs.any (fun m => m.mtype ≠ MigrationType.up) = false := by
      rw [List.any_eq_false]
      intro m hm
      simp [hty m hm]
    have hred : validateMigrationsRepo migs w
        = gapErrors 1 (sortedVersions w.ledger)
          ++ (driftRows migs w.ledger).map
              (fun e => Err.invalidMigrationFound e.version e.description e.checksum) := by
      unfold validateMigrationsRepo
      rw [if_neg (by simpa using hne), if_neg (by simp [hht]),
        if_neg (by simp only [hanyf]; exact Bool.false_ne_true)]
    have hfil : (validateMigrationsRepo migs w).filter isMissingErr
        = gapErrors 1 (sortedVersions w.ledger) := by
      rw [hred, List.filter_append, gapErrors_all_missing, drift_errors_not_missing,
        List.append_nil]
    refine ⟨hfil, ?_⟩
    rw [hfil, gapErrors_nil_iff, sortedVersions_length]

theorem validateMigrations_gap_characterization_witness :
    ([upMig 1] ≠ ([] : List Migration))
      ∧ ((validateMigrationsRepo [upMig 1] (mkWorld [okRow 1])).filter isMissingErr
            = gapErrors 1 (sortedVersions (mkWorld [okRow 1]).ledger)
          ∧ ((validateMigrationsRepo [upMig 1] (mkWorld [okRow 1])).filter isMissingErr = []
              ↔ sortedVersions (mkWorld [okRow 1]).ledger
                  = List.range' 1 (mkWorld [okRow 1]).ledger.length)) :=
  ⟨by decide,
    validateMigrations_gap_characterization.2 [upMig 1] (mkWorld [okRow 1])
      (by decide) (by decide) rfl⟩

/-- C8 counterexample: with a callback returning no error, `DoInTransaction`
commits, and the deferred `tx.Rollback()` is nevertheless invoked against the
already-committed transaction (harmlessly), contradicting the claim that
rollback is never invoked after a commit. -/
theorem doInTransaction_rollback_after_commit :
    (doInTransaction Oracle.ok (mkWorld []) (fun w => (w, []))).committed = true
      ∧ (doInTransaction Oracle.ok (mkWorld []) (fun w => (w, []))).rollbackInvokedAfterCommit
          = true := by
  exact ⟨rfl, rfl⟩

/-- C8 amended: when `BeginTx` succeeds, `DoInTransaction` commits exactly when
the callback returns no error; the executor is restored to the plain connection
on every exit path; on a callback error the transaction's ledger writes are
discarded and the callback's errors returned; the deferred `tx.Rollback()` is
invoked on every such path — after a successful commit too, where it has no
effect (the committed state is kept). -/
theorem doInTransaction_semantics (o : Oracle) (w : World)
    (fn : World → World × List Err) (hb : o.beginTxErr = none) :
    ((doInTransaction o w fn).committed = true
        ↔ (fn { w with usingTx := true }).2 = [])
      ∧ (doInTransaction o w fn).world.usingTx = false
      ∧ (doInTransaction o w fn).rollbackInvoked = true
      ∧ ((fn { w with usingTx := true }).2 ≠ [] →
          (doInTransaction o w fn).world.ledger = w.ledger
            ∧ (doInTransaction o w fn).errs = (fn { w with usingTx := true }).2)
      ∧ ((fn { w with usingTx := true }).2 = [] →
          (doInTransaction o w fn).world
              = { (fn { w with usingTx := true }).1 with usingTx := false }
            ∧ (doInTransaction o w fn).errs = [])
      ∧ ((doInTransaction o w fn).rollbackInvokedAfterCommit = true
          ↔ (fn { w with usingTx := true }).2 = []) := by
  unfold doInTransaction
  rw [hb]
  by_cases h : (fn { w with usingTx := true }).2 = []
  · simp [h]
  · have hne : (fn { w with usingTx := true }).2.isEmpty = false := by
      simpa [List.isEmpty_iff] using h
    simp [hne, h, List.isEmpty_iff]

theorem doInTransaction_semantics_witness :
    Oracle.ok.beginTxErr = none
      ∧ ((doInTransaction Oracle.ok (mkWorld []) (fun w => (w, []))).committed = true
          ↔ ((fun (w : World) => (w, ([] : List Err))) { mkWorld [] with usingTx := true }).2
              = []) :=
  ⟨rfl, (doInTransaction_semantics Oracle.ok (mkWorld []) (fun w => (w, [])) rfl).1⟩

theorem migrateRun_config (o : Oracle) (cfg : MigConfig) (w : World)
    (upMigs downMigs : List Migration) (hooks : HooksMap) (latest dest : Nat) :
    (migrateRun o cfg w upMigs downMigs hooks latest dest).config = cfg := by
  unfold migrateRun
  repeat' split
  all_goals rfl

/-- C9 counterexample: a `Migrate()` call that starts with an unset destination
returns with the destination persisted into the shared configuration (here the
highest local up version), so the orchestrator's configuration state is not
left unchanged. -/
theorem migrate_mutates_config :
    baseCfg.destination = none
      ∧ (migrate Oracle.ok baseCfg (mkWorld []) [upMig 1] [] noHooks).config.destination
          = some 1
      ∧ (migrate Oracle.ok baseCfg (mkWorld []) [upMig 1] [] noHooks).config ≠ baseCfg := by
  refine ⟨rfl, ?_, ?_⟩ <;> decide

/-- C9 amended: apart from the destination field, `Migrate()` leaves the
configuration unchanged; when the requested direction's migration set is
nonempty it writes the resolved destination (the configured one if set, else
the highest local up version for up runs and 0 for down runs) into the shared
configuration, where it persists for later calls; when the set is empty the
configuration is untouched. -/
theorem migrate_config_destination (o : Oracle) (cfg : MigConfig) (w : World)
    (upMigs downMigs : List Migration) (hooks : HooksMap) :
    (migrate o cfg w upMigs downMigs hooks).config
      = if (!cfg.down && upMigs.isEmpty) || (cfg.down && downMigs.isEmpty) then cfg
        else { cfg with destination := some (resolvedDestination cfg upMigs) } := by
  obtain ⟨cdown, cval, ctx, cdest, cforce, cr1, cb1, ca1, cbe, cae, cbv, cav⟩ := cfg
  unfold migrate
  dsimp only
  by_cases hempty : (!cdown && upMigs.isEmpty) || (cdown && downMigs.isEmpty)
  · rw [if_pos hempty, if_pos hempty]
  · rw [if_neg hempty, if_neg hempty]
    cases cdown <;> cases cdest <;>
      by_cases hv : cval <;>
        by_cases hf : (getFailingMigrations (assertSchemaHistoryTable w)).isEmpty <;>
          by_cases hl : (validateMigrationsLocal upMigs).isEmpty <;>
            by_cases hr : (validateMigrationsRepo upMigs (assertSchemaHistoryTable w)).isEmpty <;>
              simp [hv, hf, hl, hr, migrateRun_config, resolvedDestination]

/-- C10 counterexample: a configuration with validation enabled and a ledger
whose latest successful version already equals the resolved destination, but
which contains a failing row: `Migrate()` is not a no-op returning nil — it
returns the validation error for the failing row. -/
theorem migrate_up_to_date_not_always_noop :
    getLatestMigration
        (assertSchemaHistoryTable (mkWorld [okRow 1, failRow 2]))
        = resolvedDestination { baseCfg with validate := true, destination := some 1 }
            [upMig 1]
      ∧ (migrate Oracle.ok { baseCfg with validate := true, destination := some 1 }
            (mkWorld [okRow 1, failRow 2]) [upMig 1] [] noHooks).errs
          = [Err.unsucceededMigration 2] := by
  exact ⟨rfl, by decide⟩

/-- C10 amended: when validation is disabled or (if enabled) reports no errors
— no failing rows, local contiguity holds, no remote gap/drift errors — a
`Migrate()` run whose latest successful version equals the resolved destination
returns nil, executes no migration or hook statements, and writes no ledger
rows: the state is untouched apart from creating the history table if absent. -/
theorem migrate_up_to_date_noop (o : Oracle) (cfg : MigConfig) (w : World)
    (upMigs downMigs : List Migration) (hooks : HooksMap)
    (hlat : latestOf w.ledger = resolvedDestination cfg upMigs)
    (hval : cfg.validate = true →
      getFailingMigrations (assertSchemaHistoryTable w) = []
        ∧ validateMigrationsLocal upMigs = []
        ∧ validateMigrationsRepo upMigs (assertSchemaHistoryTable w) = []) :
    (migrate o cfg w upMigs downMigs hooks).errs = []
      ∧ (migrate o cfg w upMigs downMigs hooks).world = assertSchemaHistoryTable w := by
  obtain ⟨cdown, cval, ctx, cdest, cforce, cr1, cb1, ca1, cbe, cae, cbv, cav⟩ := cfg
  unfold migrate
  dsimp only
  by_cases hempty : (!cdown && upMigs.isEmpty) || (cdown && downMigs.isEmpty)
  · rw [if_pos hempty]
    exact ⟨rfl, rfl⟩
  · rw [if_neg hempty]
    have hlat2 : getLatestMigration (assertSchemaHistoryTable w)
        = latestOf w.ledger := by
      simp [getLatestMigration, assertSchemaHistoryTable]
    cases cdown <;> cases cdest <;>
      (cases cval with
       | false =>
         refine ⟨?_, ?_⟩ <;> simp [migrateRun, hlat2, hlat, resolvedDestination]
       | true =>
         obtain ⟨hf, hl, hr⟩ := hval rfl
         refine ⟨?_, ?_⟩ <;>
           simp [hf, hl, hr, migrateRun, hlat2, hlat, resolvedDestination])

theorem migrate_up_to_date_noop_witness :
    latestOf (mkWorld [okRow 1]).ledger
        = resolvedDestination
            { baseCfg with validate := true, destination := some 1 } [upMig 1]
      ∧ (migrate Oracle.ok { baseCfg with validate := true, destination := some 1 }
            (mkWorld [okRow 1]) [upMig 1] [] noHooks).errs = [] :=
  ⟨by decide,
    (migrate_up_to_date_noop Oracle.ok
        { baseCfg with validate := true, destination := some 1 }
        (mkWorld [okRow 1]) [upMig 1] [] noHooks (by decide)
        (fun _ => ⟨by decide, by decide, by decide⟩)).1⟩

theorem executeHooks_ok (o : Oracle) (force : Bool) (hs : List Hook) (w : World)
    (h : ∀ s, o.runStmt s = none) :
    executeHooks o force w hs = ({ w with trace := w.trace ++ hookEvents hs }, []) := by
  induction hs generalizing w with
  | nil => simp [executeHooks, hookEvents]
  | cons hk rest ih =>
    simp [executeHooks, executeHookRepo, h, hookEvents, ih]

theorem executeVersionedHooks_ok (o : Oracle) (force : Bool) (v : Nat)
    (hs : List Hook) (w : World) (h : ∀ s, o.runStmt s = none) :
    executeVersionedHooks o force v w hs
      = ({ w with trace :=
            w.trace ++ hookEvents (hs.filter (fun hk => v = hk.version)) }, []) := by
  induction hs generalizing w with
  | nil => simp [executeVersionedHooks, hookEvents]
  | cons hk rest ih =>
    by_cases hv : v = hk.version
    · subst hv
      simp [executeVersionedHooks, executeHookRepo, h, hookEvents, ih]
    · simp [executeVersionedHooks, executeHookRepo, h, hookEvents, hv, ih]

theorem executeMigrationRepo_ok (o : Oracle) (m : Migration) (w : World)
    (hty : m.mtype = MigrationType.up) (h1 : o.runStmt m.content = none)
    (h2 : o.writeLedger m.version = none) :
    executeMigrationRepo o w m
      = ({ w with
           trace := w.trace ++ [Event.migEv m.version],
           ledger := upsertLedger w.ledger m true w.now }, []) := by
  simp [executeMigrationRepo, hty, h1, h2]

theorem upLoop_ok (o : Oracle) (cfg : MigConfig) (hooks : HooksMap)
    (fromV toV : Nat) (migs : List Migration) :
    ∀ w : World, (∀ s, o.runStmt s = none) → (∀ v, o.writeLedger v = none) →
    (∀ m ∈ migs, m.mtype = MigrationType.up) →
    upLoop o cfg hooks fromV toV (w, [], false) migs
      = ({ w with
           ledger := upRunLedger w.ledger migs w.now fromV toV,
           trace := w.trace ++ migs.flatMap (fun m =>
             if m.version < fromV ∨ m.version > toV then []
             else upBlockEvents cfg hooks m) }, [], false) := by
  induction migs with
  | nil =>
    intro w _ _ _
    simp [upLoop, upRunLedger]
  | cons m rest ih =>
    intro w h h2 hty
    have htym : m.mtype = MigrationType.up := hty m (by simp)
    have htyr : ∀ m' ∈ rest, m'.mtype = MigrationType.up :=
      fun m' hm' => hty m' (by simp [hm'])
    by_cases hin : m.version < fromV ∨ m.version > toV
    · rw [upLoop, if_pos hin, ih w h h2 htyr]
      simp [upRunLedger, hin]
    · rw [upLoop, if_neg hin]
      by_cases hb1 : cfg.useRepeatable ∧ m.version > 1 <;>
        by_cases hb2 : cfg.useBeforeEach <;>
          by_cases hb3 : cfg.useBeforeVersion <;>
            by_cases hb4 : cfg.useAfterVersion <;>
              by_cases hb5 : cfg.useAfterEach <;>
                simp [hb1, hb2, hb3, hb4, hb5, phaseStep,
                  executeHooks_ok o cfg.force _ _ h,
                  executeVersionedHooks_ok o cfg.force _ _ _ h,
                  executeMigrationRepo_ok o m _ htym (h m.content) (h2 m.version),
                  ih _ h h2 htyr, upBlockEvents, upRunLedger, hin,
                  List.append_assoc]

theorem migrateUp_ok (o : Oracle) (cfg : MigConfig) (w : World)
    (migs : List Migration) (hooks : HooksMap) (fromV toV : Nat)
    (h : ∀ s, o.runStmt s = none) (h2 : ∀ v, o.writeLedger v = none)
    (hty : ∀ m ∈ migs, m.mtype = MigrationType.up) :
    migrateUp o cfg w migs hooks fromV toV
      = ({ w with
           ledger := upRunLedger w.ledger migs w.now fromV toV,
           trace := w.trace ++ upRunEvents cfg migs hooks fromV toV }, []) := by
  unfold migrateUp
  by_cases hbf : cfg.useBefore <;> by_cases haf : cfg.useAfter <;>
    simp [hbf, haf, phaseStep, executeHooks_ok o cfg.force _ _ h,
      upLoop_ok o cfg hooks fromV toV migs _ h h2 hty, upRunEvents,
      List.append_assoc]

theorem localWalk_ok (migs : List Migration) :
    ∀ a k, migs.map (fun m => m.version) = List.range' a k → localWalk a migs = [] := by
  induction migs with
  | nil => intro a k _; rfl
  | cons m rest ih =>
    intro a k hv
    cases k with
    | zero => simp at hv
    | succ k' =>
      rw [List.range'_succ] at hv
      simp only [List.map_cons, List.cons.injEq] at hv
      obtain ⟨hma, hrest⟩ := hv
      rw [localWalk, if_neg (by simp [hma]), List.nil_append, hma]
      exact ih (a + 1) k' hrest

theorem upRunLedger_contiguous (D now : Nat) :
    ∀ (migs : List Migration) (a k : Nat) (led : List LedgerEntry),
    migs.map (fun m => m.version) = List.range' a k → 1 ≤ a →
    (∀ e ∈ led, e.version < a) →
    upRunLedger led migs now 1 D
      = led ++ (migs.filter (fun m => m.version ≤ D)).map (cleanEntry now) := by
  intro migs
  induction migs with
  | nil => intro a k led _ _ _; simp [upRunLedger]
  | cons m rest ih =>
    intro a k led hv ha hl
    cases k with
    | zero => simp at hv
    | succ k' =>
      rw [List.range'_succ] at hv
      simp only [List.map_cons, List.cons.injEq] at hv
      obtain ⟨hma, hrest⟩ := hv
      by_cases hD : m.version ≤ D
      · have hin : ¬(m.version < 1 ∨ m.version > D) := by omega
        have hfresh : led.any (fun e => e.version = m.version) = false := by
          rw [List.any_eq_false]
          intro e he
          have := hl e he
          simp only [decide_eq_true_eq]
          omega
        have hups : upsertLedger led m true now = led ++ [cleanEntry now m] := by
          rw [upsertLedger, if_neg (by simp [hfresh])]
          rfl
        simp only [upRunLedger, List.foldl_cons, if_neg hin]
        rw [show (List.foldl (fun led m =>
            if m.version < 1 ∨ m.version > D then led else upsertLedger led m true now)
            (upsertLedger led m true now) rest)
          = upRunLedger (upsertLedger led m true now) rest now 1 D from rfl]
        rw [hups, ih (a + 1) k' (led ++ [cleanEntry now m]) hrest (by omega) ?hmem]
        · rw [List.filter_cons_of_pos (by simp [hD]), List.map_cons, List.append_assoc]
          rfl
        · intro e he
          rcases List.mem_append.mp he with h' | h'
          · have := hl e h'
            omega
          · have := List.mem_singleton.mp h'
            subst this
            simp [cleanEntry]
            omega
      · have hin : m.version < 1 ∨ m.version > D := Or.inr (by omega)
        simp only [upRunLedger, List.foldl_cons, if_pos hin]
        rw [show (List.foldl (fun led m =>
            if m.version < 1 ∨ m.version > D then led else upsertLedger led m true now)
            led rest) = upRunLedger led rest now 1 D from rfl]
        rw [ih (a + 1) k' led hrest (by omega) (fun e he => by have := hl e he; omega)]
        rw [List.filter_cons_of_neg (by simp [hD])]

theorem filter_le_range' (D N : Nat) (h : D ≤ N) :
    (List.range' 1 N).filter (fun v => decide (v ≤ D)) = List.range' 1 D := by
  have hsplit : List.range' 1 D ++ List.range' (1 + 1 * D) (N - D) 1
      = List.range' 1 (N - D + D) := List.range'_append 1 D (N - D) 1
  rw [show N - D + D = N from by omega] at hsplit
  rw [← hsplit, List.filter_append]
  have h1 : (List.range' 1 D).filter (fun v => decide (v ≤ D)) = List.range' 1 D := by
    apply List.filter_eq_self.mpr
    intro v hv
    have := List.mem_range'_1.mp hv
    simp only [decide_eq_true_eq]
    omega
  have h2 : (List.range' (1 + 1 * D) (N - D) 1).filter (fun v => decide (v ≤ D)) = [] := by
    apply List.filter_eq_nil_iff.mpr
    intro v hv
    have := List.mem_range'_1.mp hv
    simp only [decide_eq_true_eq]
    omega
  rw [h1, h2, List.append_nil]

theorem foldl_max_range' : ∀ k : Nat, (List.range' 1 k).foldl max 0 = k := by
  intro k
  induction k with
  | zero => rfl
  | succ k' ih =>
    rw [List.range'_concat, List.foldl_append, ih]
    simp only [List.foldl_cons, List.foldl_nil]
    omega

/-- C1: a `Migrate()` run with the all-success oracle, up direction,
destination `D` with `1 ≤ D ≤ N`, a local up set carrying exactly the versions
`1..N`, and an empty starting ledger: the run reports no error, afterwards
`GetLatestMigration` returns `D`, and the ledger holds exactly one
`success = true` row per version of `[1, D]`, in order, and no other row. -/
theorem migrate_clean_up_run (o : Oracle) (cfg : MigConfig) (w : World)
    (upMigs downMigs : List Migration) (hooks : HooksMap) (N D : Nat)
    (h : ∀ s, o.runStmt s = none) (h2 : ∀ v, o.writeLedger v = none)
    (hb : o.beginTxErr = none) (hdown : cfg.down = false)
    (hdest : cfg.destination = some D) (hD1 : 1 ≤ D) (hDN : D ≤ N)
    (hvers : upMigs.map (fun m => m.version) = List.range' 1 N)
    (hty : ∀ m ∈ upMigs, m.mtype = MigrationType.up) (hled : w.ledger = []) :
    (migrate o cfg w upMigs downMigs hooks).errs = []
      ∧ getLatestMigration (migrate o cfg w upMigs downMigs hooks).world = D
      ∧ (migrate o cfg w upMigs downMigs hooks).world.ledger.map
            (fun e => (e.version, e.success))
          = (List.range' 1 D).map (fun v => (v, true)) := by
  have hlen : upMigs.length = N := by
    rw [← List.length_map upMigs (fun m => m.version), hvers, List.length_range']
  have hnil : upMigs ≠ [] := by
    intro hx
    rw [hx] at hlen
    simp at hlen
    omega
  have hne : upMigs.isEmpty = false := by
    cases upMigs with
    | nil => exact absurd rfl hnil
    | cons a l => rfl
  -- the ledger written by the clean run
  have hrunled : upRunLedger ([] : List LedgerEntry) upMigs w.now 1 D
      = (upMigs.filter (fun m => m.version ≤ D)).map (cleanEntry w.now) := by
    rw [upRunLedger_contiguous D w.now upMigs 1 N [] hvers (by omega) (by simp)]
    rfl
  have hfilmap : (upMigs.filter (fun m => m.version ≤ D)).map (fun m => m.version)
      = List.range' 1 D := by
    have := List.filter_map (fun m : Migration => m.version)
      (p := fun v => decide (v ≤ D)) upMigs
    rw [hvers] at this
    rw [← filter_le_range' D N hDN, this]
    rfl
  have hledmap : ((upMigs.filter (fun m => m.version ≤ D)).map (cleanEntry w.now)).map
        (fun e => (e.version, e.success))
      = (List.range' 1 D).map (fun v => (v, true)) := by
    rw [List.map_map, ← hfilmap, List.map_map]
    rfl
  have hlatest : latestOf ((upMigs.filter (fun m => m.version ≤ D)).map
        (cleanEntry w.now)) = D := by
    unfold latestOf
    have hfs : ((upMigs.filter (fun m => m.version ≤ D)).map (cleanEntry w.now)).filter
        (fun e => e.success) = (upMigs.filter (fun m => m.version ≤ D)).map
          (cleanEntry w.now) := by
      apply List.filter_eq_self.mpr
      intro e he
      rcases List.mem_map.mp he with ⟨m', _, hm'⟩
      subst hm'
      rfl
    rw [hfs, List.map_map]
    have : ((upMigs.filter (fun m => m.version ≤ D)).map
        ((fun e : LedgerEntry => e.version) ∘ cleanEntry w.now))
        = List.range' 1 D := by
      rw [← hfilmap]
      rfl
    rw [this, foldl_max_range']
  -- reduce the migrate call
  obtain ⟨cdown, cval, ctx, cdest, cforce, cr1, cb1, ca1, cbe, cae, cbv, cav⟩ := cfg
  simp only at hdown hdest
  subst hdown hdest
  unfold migrate
  dsimp only
  rw [if_neg (by simp [hne])]
  have hw1led : (assertSchemaHistoryTable w).ledger = [] := hled
  have hlat0 : getLatestMigration (assertSchemaHistoryTable w) = 0 := by
    simp [getLatestMigration, assertSchemaHistoryTable, hled, latestOf]
  have hrem : validateMigrationsRepo upMigs (assertSchemaHistoryTable w) = [] := by
    unfold validateMigrationsRepo
    have hanyf : upMigs.any (fun m => m.mtype ≠ MigrationType.up) = false := by
      rw [List.any_eq_false]
      intro m' hm'
      simp [hty m' hm']
    rw [if_neg (by simp [hne]), if_neg (by simp [assertSchemaHistoryTable]),
      if_neg (by simp only [hanyf]; exact Bool.false_ne_true)]
    rw [hw1led]
    rfl
  have hloc : validateMigrationsLocal upMigs = [] := by
    unfold validateMigrationsLocal
    exact localWalk_ok upMigs 1 N hvers
  have hfail : getFailingMigrations (assertSchemaHistoryTable w) = [] := by
    simp [getFailingMigrations, assertSchemaHistoryTable, hled]
  have hrun :
      migrateRun o
          ⟨false, cval, ctx, some D, cforce, cr1, cb1, ca1, cbe, cae, cbv, cav⟩
          (assertSchemaHistoryTable w) upMigs downMigs hooks
          (getLatestMigration (assertSchemaHistoryTable w))
          D = ⟨⟨false, cval, ctx, some D, cforce, cr1, cb1, ca1,
            cbe, cae, cbv, cav⟩,
          { assertSchemaHistoryTable w with
            ledger := upRunLedger (assertSchemaHistoryTable w).ledger upMigs
              (assertSchemaHistoryTable w).now 1 D,
            trace := (assertSchemaHistoryTable w).trace
              ++ upRunEvents ⟨false, cval, ctx, some D, cforce, cr1, cb1, ca1,
                  cbe, cae, cbv, cav⟩ upMigs hooks 1 D,
            usingTx := if ctx then false else (assertSchemaHistoryTable w).usingTx },
          []⟩ := by
    rw [migrateRun, hlat0]
    rw [if_neg (show ¬((0 : Nat) = D) by omega)]
    rw [if_neg (show ¬((!false && decide (D < 0)) = true) by simp)]
    rw [if_neg (show ¬((false && decide (D > 0)) = true) by simp)]
    cases ctx with
    | true =>
      rw [if_pos (show (true : Bool) = true from rfl)]
      rw [doInTransaction, hb]
      dsimp only
      simp only [Nat.zero_add, Option.getD_some]
      rw [migrateUp_ok o _ _ upMigs hooks 1 D h h2 hty]
      simp [assertSchemaHistoryTable]
    | false =>
      dsimp only
      simp only [Nat.zero_add, Option.getD_some]
      rw [migrateUp_ok o _ _ upMigs hooks 1 D h h2 hty]
      simp [assertSchemaHistoryTable]
  cases cval with
  | true =>
    simp only [show ((!false && decide ((some D : Option Nat) = none))) = false from by simp,
      Bool.false_eq_true, Bool.false_and, if_false]
    try dsimp only
    simp only [Option.getD_some]
    rw [if_pos (show True from trivial)]
    rw [if_neg (show
      ¬((!(getFailingMigrations (assertSchemaHistoryTable w)).isEmpty) = true) by
        simp [hfail])]
    rw [if_neg (show ¬((!(validateMigrationsLocal upMigs).isEmpty) = true) by
      simp [hloc])]
    rw [if_neg (show
      ¬((!(validateMigrationsRepo upMigs (assertSchemaHistoryTable w)).isEmpty) = true) by
        simp [hrem])]
    rw [hrun]
    refine ⟨rfl, ?_, ?_⟩
    · simp [getLatestMigration, assertSchemaHistoryTable, hled, hrunled, hlatest]
    · simp [assertSchemaHistoryTable, hled, hrunled, hledmap]
  | false =>
    simp only [show ((!false && decide ((some D : Option Nat) = none))) = false from by simp,
      Bool.false_eq_true, Bool.false_and, if_false]
    try dsimp only
    simp only [Option.getD_some]
    rw [hrun]
    refine ⟨rfl, ?_, ?_⟩
    · simp [getLatestMigration, assertSchemaHistoryTable, hled, hrunled, hlatest]
    · simp [assertSchemaHistoryTable, hled, hrunled, hledmap]

theorem migrate_clean_up_run_witness :
    (migrate Oracle.ok
          { baseCfg with destination := some 2, validate := true, inTransaction := true }
          (mkWorld []) [upMig 1, upMig 2] [] noHooks).errs = []
      ∧ getLatestMigration (migrate Oracle.ok
          { baseCfg with destination := some 2, validate := true, inTransaction := true }
          (mkWorld []) [upMig 1, upMig 2] [] noHooks).world = 2
      ∧ (migrate Oracle.ok
          { baseCfg with destination := some 2, validate := true, inTransaction := true }
          (mkWorld []) [upMig 1, upMig 2] [] noHooks).world.ledger.map
            (fun e => (e.version, e.success))
          = (List.range' 1 2).map (fun v => (v, true)) :=
  migrate_clean_up_run Oracle.ok
    { baseCfg with destination := some 2, validate := true, inTransaction := true }
    (mkWorld []) [upMig 1, upMig 2] [] noHooks 2 2
    (fun _ => rfl) (fun _ => rfl) rfl rfl rfl (by decide) (by decide) (by decide)
    (by decide) rfl

theorem stepErrs_const (o : Oracle) (s : Step) (hnr : noRollback s) :
    ∀ w1 w2 : World, stepErrs o w1 s = stepErrs o w2 s := by
  cases s with
  | hookS h => intro w1 w2; rfl
  | vhookS h => intro w1 w2; rfl
  | migS m => intro w1 w2; rfl
  | rollbackS m => exact absurd hnr (by simp [noRollback])

theorem applyStep_trace (o : Oracle) (w : World) (s : Step) (hemit : emitsEvent s) :
    (applyStep o w s).trace = w.trace ++ [stepEvent s] := by
  cases s with
  | hookS h => rfl
  | vhookS h => rfl
  | migS m =>
    have hty : m.mtype = MigrationType.up := hemit
    simp only [applyStep, executeMigrationRepo, hty]
    cases o.writeLedger m.version <;> simp [stepEvent]
  | rollbackS m => exact absurd hemit (by simp [emitsEvent])

theorem executeMigrationRepo_pair (o : Oracle) (w : World) (m : Migration) :
    executeMigrationRepo o w m = (applyStep o w (Step.migS m), stepErrs o w (Step.migS m)) := by
  by_cases hty : m.mtype = MigrationType.up
  · simp only [applyStep, stepErrs, hty]
    cases hw : o.writeLedger m.version <;>
      cases hr : o.runStmt m.content <;>
        simp [executeMigrationRepo, hty, hw, hr, Option.toList]
  · simp [applyStep, stepErrs, executeMigrationRepo, hty]

theorem rollbackMigrationRepo_pair (o : Oracle) (w : World) (m : Migration) :
    (rollbackMigrationRepo o w m).1 = applyStep o w (Step.rollbackS m)
      ∧ ((rollbackMigrationRepo o w m).2.map (Err.rollbackWrap m.version)).toList
          = stepErrs o w (Step.rollbackS m) := by
  exact ⟨rfl, rfl⟩

theorem runSteps_abort (o : Oracle) (force : Bool) (steps : List Step) :
    ∀ w : World, (runSteps o force w steps).2.2
      = (!force && !(runSteps o force w steps).2.1.isEmpty) := by
  induction steps with
  | nil => intro w; simp [runSteps]
  | cons s rest ih =>
    intro w
    simp only [runSteps]
    by_cases he : (stepErrs o w s).isEmpty
    · simp only [he, if_pos]
      exact ih (applyStep o w s)
    · cases force with
      | true => simp [he, ih]
      | false => simp [he]

theorem executeHooks_eq (o : Oracle) (force : Bool) (hs : List Hook) :
    ∀ w : World, executeHooks o force w hs
      = ((runSteps o force w (hookSteps hs)).1, (runSteps o force w (hookSteps hs)).2.1) := by
  induction hs with
  | nil => intro w; simp [executeHooks, hookSteps, runSteps]
  | cons h rest ih =>
    intro w
    cases hE : o.runStmt h.content with
    | none =>
      simp [executeHooks, executeHookRepo, hookSteps, runSteps, stepErrs, hE,
        applyStep, ih]
    | some msg =>
      cases force <;>
        simp [executeHooks, executeHookRepo, hookSteps, runSteps, stepErrs, hE,
          applyStep, ih]

theorem executeVersionedHooks_eq (o : Oracle) (force : Bool) (v : Nat) (hs : List Hook) :
    ∀ w : World, executeVersionedHooks o force v w hs
      = ((runSteps o force w (vhookSteps v hs)).1,
         (runSteps o force w (vhookSteps v hs)).2.1) := by
  induction hs with
  | nil => intro w; simp [executeVersionedHooks, vhookSteps, runSteps]
  | cons h rest ih =>
    intro w
    by_cases hv : v = h.version
    · subst hv
      have hf : List.filter (fun hk => decide (h.version = hk.version)) (h :: rest)
          = h :: List.filter (fun hk => decide (h.version = hk.version)) rest :=
        List.filter_cons_of_pos (by simp)
      cases hE : o.runStmt h.content with
      | none =>
        simp [executeVersionedHooks, executeHookRepo, vhookSteps, hf, runSteps,
          stepErrs, hE, applyStep, ih]
      | some msg =>
        cases force <;>
          simp [executeVersionedHooks, executeHookRepo, vhookSteps, hf, runSteps,
            stepErrs, hE, applyStep, ih]
    · have hf : List.filter (fun hk => decide (v = hk.version)) (h :: rest)
          = List.filter (fun hk => decide (v = hk.version)) rest :=
        List.filter_cons_of_neg (by simp [hv])
      simp only [executeVersionedHooks, if_neg hv, vhookSteps, hf]
      exact ih w

theorem runSteps_append (o : Oracle) (force : Bool) (a b : List Step) :
    ∀ w : World, runSteps o force w (a ++ b)
      = (if (runSteps o force w a).2.2 then runSteps o force w a
         else ((runSteps o force (runSteps o force w a).1 b).1,
               (runSteps o force w a).2.1
                 ++ (runSteps o force (runSteps o force w a).1 b).2.1,
               (runSteps o force (runSteps o force w a).1 b).2.2)) := by
  induction a with
  | nil => intro w; simp [runSteps]
  | cons s rest ih =>
    intro w
    simp only [List.cons_append, runSteps]
    by_cases he : (stepErrs o w s).isEmpty
    · simp only [he, if_pos]
      exact ih (applyStep o w s)
    · cases force with
      | true =>
        have hab := runSteps_abort o true rest (applyStep o w s)
        simp only [Bool.not_true, Bool.false_and] at hab
        simp [he, ih, hab, List.append_assoc]
      | false =>
        simp [he]

theorem accRun_nil (o : Oracle) (force : Bool) (acc : World × List Err × Bool) :
    accRun o force acc [] = acc := by
  obtain ⟨w, errs, ab⟩ := acc
  cases ab <;> simp [accRun, runSteps]

theorem accRun_append (o : Oracle) (force : Bool) (acc : World × List Err × Bool)
    (a b : List Step) :
    accRun o force (accRun o force acc a) b = accRun o force acc (a ++ b) := by
  obtain ⟨w, errs, ab⟩ := acc
  cases ab with
  | true => simp [accRun]
  | false =>
    simp only [accRun, runSteps_append o force a b w]
    by_cases hab : (runSteps o force w a).2.2
    · simp [hab, accRun]
    · simp [hab, accRun, List.append_assoc]

theorem phaseStep_hooks (o : Oracle) (force : Bool) (acc : World × List Err × Bool)
    (hs : List Hook) :
    phaseStep force acc (fun w => executeHooks o force w hs)
      = accRun o force acc (hookSteps hs) := by
  obtain ⟨w, errs, ab⟩ := acc
  cases ab with
  | true => simp [phaseStep, accRun]
  | false =>
    simp only [phaseStep, executeHooks_eq o force hs w, accRun]
    have hab := runSteps_abort o force (hookSteps hs) w
    by_cases he : (runSteps o force w (hookSteps hs)).2.1.isEmpty
    · have h1 : (runSteps o force w (hookSteps hs)).2.1 = [] := by
        simpa [List.isEmpty_iff] using he
      simp [he, h1, hab]
    · have h2 : (runSteps o force w (hookSteps hs)).2.2 = !force := by
        rw [hab]
        simp [he]
      simp [he, h2]

theorem phaseStep_vhooks (o : Oracle) (force : Bool) (acc : World × List Err × Bool)
    (v : Nat) (hs : List Hook) :
    phaseStep force acc (fun w => executeVersionedHooks o force v w hs)
      = accRun o force acc (vhookSteps v hs) := by
  obtain ⟨w, errs, ab⟩ := acc
  cases ab with
  | true => simp [phaseStep, accRun]
  | false =>
    simp only [phaseStep, executeVersionedHooks_eq o force v hs w, accRun]
    have hab := runSteps_abort o force (vhookSteps v hs) w
    by_cases he : (runSteps o force w (vhookSteps v hs)).2.1.isEmpty
    · have h1 : (runSteps o force w (vhookSteps v hs)).2.1 = [] := by
        simpa [List.isEmpty_iff] using he
      simp [he, h1, hab]
    · have h2 : (runSteps o force w (vhookSteps v hs)).2.2 = !force := by
        rw [hab]
        simp [he]
      simp [he, h2]

theorem phaseStep_mig (o : Oracle) (force : Bool) (acc : World × List Err × Bool)
    (m : Migration) :
    phaseStep force acc (fun w => executeMigrationRepo o w m)
      = accRun o force acc [Step.migS m] := by
  obtain ⟨w, errs, ab⟩ := acc
  cases ab with
  | true => simp [phaseStep, accRun]
  | false =>
    simp only [phaseStep, executeMigrationRepo_pair o w m, accRun, runSteps]
    by_cases he : (stepErrs o w (Step.migS m)).isEmpty
    · have h1 : stepErrs o w (Step.migS m) = [] := by simpa [List.isEmpty_iff] using he
      simp [he, h1]
    · cases force <;> simp [he, List.isEmpty_iff] <;>
        simp [List.isEmpty_iff] at he <;> simp [he]

theorem phaseStep_rollback (o : Oracle) (force : Bool) (acc : World × List Err × Bool)
    (m : Migration) :
    phaseStep force acc (fun w =>
        ((rollbackMigrationRepo o w m).1,
         ((rollbackMigrationRepo o w m).2.map (Err.rollbackWrap m.version)).toList))
      = accRun o force acc [Step.rollbackS m] := by
  obtain ⟨w, errs, ab⟩ := acc
  cases ab with
  | true => simp [phaseStep, accRun]
  | false =>
    simp only [phaseStep, accRun, runSteps]
    have hw : (rollbackMigrationRepo o w m).1 = applyStep o w (Step.rollbackS m) := rfl
    have herr : ((rollbackMigrationRepo o w m).2.map (Err.rollbackWrap m.version)).toList
        = stepErrs o w (Step.rollbackS m) := rfl
    rw [hw, herr]
    by_cases he : (stepErrs o w (Step.rollbackS m)).isEmpty
    · have h1 : stepErrs o w (Step.rollbackS m) = [] := by
        simpa [List.isEmpty_iff] using he
      simp [he, h1]
    · cases force <;> simp [he, List.isEmpty_iff] <;>
        simp [List.isEmpty_iff] at he <;> simp [he]

theorem upLoop_steps (o : Oracle) (cfg : MigConfig) (hooks : HooksMap)
    (fromV toV : Nat) (migs : List Migration) :
    ∀ acc, upLoop o cfg hooks fromV toV acc migs
      = accRun o cfg.force acc (migs.flatMap (fun m =>
          if m.version < fromV ∨ m.version > toV then [] else upMigSteps cfg hooks m)) := by
  induction migs with
  | nil => intro acc; simp [upLoop, accRun_nil]
  | cons m rest ih =>
    intro acc
    by_cases hin : m.version < fromV ∨ m.version > toV
    · simp only [upLoop, if_pos hin, List.flatMap_cons, if_pos hin, List.nil_append]
      exact ih acc
    · simp only [upLoop, if_neg hin, List.flatMap_cons, if_neg hin]
      rw [ih]
      by_cases hb1 : cfg.useRepeatable ∧ m.version > 1 <;>
        by_cases hb2 : cfg.useBeforeEach <;>
          by_cases hb3 : cfg.useBeforeVersion <;>
            by_cases hb4 : cfg.useAfterVersion <;>
              by_cases hb5 : cfg.useAfterEach <;>
                simp [hb1, hb2, hb3, hb4, hb5, phaseStep_hooks, phaseStep_vhooks,
                  phaseStep_mig, accRun_append, accRun_nil, upMigSteps,
                  List.append_assoc]

theorem accRun_start (o : Oracle) (force : Bool) (w : World) (steps : List Step) :
    accRun o force (w, [], false) steps = runSteps o force w steps := by
  simp [accRun]

theorem accRun_runSteps (o : Oracle) (force : Bool) (w : World) (a b : List Step) :
    accRun o force (runSteps o force w a) b = runSteps o force w (a ++ b) := by
  rw [← accRun_start o force w a, accRun_append, accRun_start]

theorem migrateUp_steps (o : Oracle) (cfg : MigConfig) (w : World)
    (migs : List Migration) (hooks : HooksMap) (fromV toV : Nat) :
    migrateUp o cfg w migs hooks fromV toV
      = ((runSteps o cfg.force w (upSteps cfg migs hooks fromV toV)).1,
         (runSteps o cfg.force w (upSteps cfg migs hooks fromV toV)).2.1) := by
  unfold migrateUp
  dsimp only
  rw [upLoop_steps]
  by_cases hbf : cfg.useBefore <;> by_cases haf : cfg.useAfter <;>
    simp only [hbf, haf, if_pos, if_neg, Bool.false_eq_true, if_false, if_true,
      phaseStep_hooks, accRun_append, accRun_nil, accRun_start, accRun_runSteps,
      upSteps, List.append_assoc, List.nil_append, List.append_nil]

theorem flatMap_congr_mem {α β : Type} (l : List α) (f g : α → List β)
    (h : ∀ a ∈ l, f a = g a) : l.flatMap f = l.flatMap g := by
  induction l with
  | nil => rfl
  | cons a rest ih =>
    simp only [List.flatMap_cons]
    rw [h a (by simp), ih (fun a ha => h a (by simp [ha]))]

theorem runSteps_true_errs (o : Oracle) (steps : List Step)
    (hnr : ∀ s ∈ steps, noRollback s) :
    ∀ w, (runSteps o true w steps).2.1 = steps.flatMap (stepErrs o w) := by
  induction steps with
  | nil => intro w; simp [runSteps]
  | cons s rest ih =>
    intro w
    have hs := hnr s (by simp)
    have hrest : ∀ t ∈ rest, noRollback t := fun t ht => hnr t (by simp [ht])
    have htrans : rest.flatMap (stepErrs o (applyStep o w s))
        = rest.flatMap (stepErrs o w) :=
      flatMap_congr_mem rest _ _ (fun t ht => stepErrs_const o t (hrest t ht) _ _)
    simp only [runSteps, List.flatMap_cons]
    by_cases he : (stepErrs o w s).isEmpty
    · have h1 : stepErrs o w s = [] := by simpa [List.isEmpty_iff] using he
      simp only [he, if_pos]
      rw [h1, List.nil_append, ih hrest (applyStep o w s), htrans]
    · simp only [he, Bool.false_eq_true, if_false, if_true]
      rw [ih hrest (applyStep o w s), htrans]

theorem runSteps_true_trace (o : Oracle) (steps : List Step)
    (hemit : ∀ s ∈ steps, emitsEvent s) :
    ∀ w, (runSteps o true w steps).1.trace = w.trace ++ steps.map stepEvent := by
  induction steps with
  | nil => intro w; simp [runSteps]
  | cons s rest ih =>
    intro w
    have hs := hemit s (by simp)
    have hrest : ∀ t ∈ rest, emitsEvent t := fun t ht => hemit t (by simp [ht])
    have htr := applyStep_trace o w s hs
    simp only [runSteps, List.map_cons]
    by_cases he : (stepErrs o w s).isEmpty
    · simp only [he, if_pos]
      rw [ih hrest (applyStep o w s), htr, List.append_assoc]
      rfl
    · simp only [he, Bool.false_eq_true, if_false, if_true]
      rw [ih hrest (applyStep o w s), htr, List.append_assoc]
      rfl

theorem runSteps_clean_run (o : Oracle) (force : Bool) (steps : List Step)
    (hclean : ∀ s ∈ steps, ∀ w', stepErrs o w' s = []) :
    ∀ w, (runSteps o force w steps).2.1 = []
      ∧ ((∀ s ∈ steps, emitsEvent s) →
          (runSteps o force w steps).1.trace = w.trace ++ steps.map stepEvent) := by
  induction steps with
  | nil => intro w; simp [runSteps]
  | cons s rest ih =>
    intro w
    have h1 : stepErrs o w s = [] := hclean s (by simp) w
    have hrest : ∀ t ∈ rest, ∀ w', stepErrs o w' t = [] :=
      fun t ht => hclean t (by simp [ht])
    have he : (stepErrs o w s).isEmpty = true := by simp [h1]
    simp only [runSteps, he, if_pos, List.map_cons]
    refine ⟨(ih hrest (applyStep o w s)).1, ?_⟩
    intro hemit
    rw [(ih hrest (applyStep o w s)).2 (fun t ht => hemit t (by simp [ht])),
      applyStep_trace o w s (hemit s (by simp)), List.append_assoc]
    rfl

theorem runSteps_first_err (o : Oracle) (s : Step) (post : List Step)
    (hnr : noRollback s) :
    ∀ (pre : List Step) (w : World),
    (∀ t ∈ pre, ∀ w', stepErrs o w' t = []) →
    stepErrs o w s ≠ [] →
    (runSteps o false w (pre ++ s :: post)).2.1 = stepErrs o w s
      ∧ ((∀ t ∈ pre, emitsEvent t) → emitsEvent s →
          (runSteps o false w (pre ++ s :: post)).1.trace
            = w.trace ++ (pre ++ [s]).map stepEvent) := by
  intro pre
  induction pre with
  | nil =>
    intro w _ herr
    have he : (stepErrs o w s).isEmpty = false := by
      cases h' : stepErrs o w s with
      | nil => exact absurd h' herr
      | cons a l => rfl
    simp only [List.nil_append, runSteps, he, Bool.false_eq_true, if_false]
    refine ⟨by simp, fun _ hs => ?_⟩
    simp only [List.map_cons, List.map_nil]
    rw [applyStep_trace o w s hs]
  | cons t pre' ih =>
    intro w hclean herr
    have h1 : stepErrs o w t = [] := hclean t (by simp) w
    have he : (stepErrs o w t).isEmpty = true := by simp [h1]
    have hconst := stepErrs_const o s hnr (applyStep o w t) w
    simp only [List.cons_append, runSteps, he, if_pos, List.append_eq]
    have hrec := ih (applyStep o w t) (fun u hu => hclean u (by simp [hu]))
      (by rw [hconst]; exact herr)
    refine ⟨by rw [hrec.1, hconst], ?_⟩
    intro hemit hs
    rw [hrec.2 (fun u hu => hemit u (by simp [hu])) hs,
      applyStep_trace o w t (hemit t (by simp))]
    simp [List.append_assoc]

theorem hookSteps_shape (hs : List Hook) :
    ∀ s ∈ hookSteps hs, noRollback s ∧ emitsEvent s := by
  intro s hsm
  rcases List.mem_map.mp hsm with ⟨h, _, rfl⟩
  exact ⟨trivial, trivial⟩

theorem vhookSteps_shape (v : Nat) (hs : List Hook) :
    ∀ s ∈ vhookSteps v hs, noRollback s ∧ emitsEvent s := by
  intro s hsm
  rcases List.mem_map.mp hsm with ⟨h, _, rfl⟩
  exact ⟨trivial, trivial⟩

theorem upSteps_shape (cfg : MigConfig) (migs : List Migration) (hooks : HooksMap)
    (fromV toV : Nat) (hty : ∀ m ∈ migs, m.mtype = MigrationType.up) :
    ∀ s ∈ upSteps cfg migs hooks fromV toV, noRollback s ∧ emitsEvent s := by
  intro s hs
  unfold upSteps at hs
  rcases List.mem_append.mp hs with hs1 | hs1
  · rcases List.mem_append.mp hs1 with hs2 | hs2
    · by_cases hb : cfg.useBefore = true
      · rw [if_pos hb] at hs2
        exact hookSteps_shape _ s hs2
      · rw [if_neg hb] at hs2
        cases hs2
    · rcases List.mem_flatMap.mp hs2 with ⟨m, hm, hsm⟩
      by_cases hin : m.version < fromV ∨ m.version > toV
      · rw [if_pos hin] at hsm
        cases hsm
      · rw [if_neg hin] at hsm
        unfold upMigSteps at hsm
        have htym := hty m hm
        rcases List.mem_append.mp hsm with h1 | h1
        · rcases List.mem_append.mp h1 with h2 | h2
          · rcases List.mem_append.mp h2 with h3 | h3
            · rcases List.mem_append.mp h3 with h4 | h4
              · rcases List.mem_append.mp h4 with h5 | h5
                · by_cases hb : cfg.useRepeatable ∧ m.version > 1
                  · rw [if_pos hb] at h5
                    exact hookSteps_shape _ s h5
                  · rw [if_neg hb] at h5
                    cases h5
                · by_cases hb : cfg.useBeforeEach = true
                  · rw [if_pos hb] at h5
                    exact hookSteps_shape _ s h5
                  · rw [if_neg hb] at h5
                    cases h5
              · by_cases hb : cfg.useBeforeVersion = true
                · rw [if_pos hb] at h4
                  exact vhookSteps_shape _ _ s h4
                · rw [if_neg hb] at h4
                  cases h4
            · rcases List.mem_singleton.mp h3 with rfl
              exact ⟨trivial, htym⟩
          · by_cases hb : cfg.useAfterVersion = true
            · rw [if_pos hb] at h2
              exact vhookSteps_shape _ _ s h2
            · rw [if_neg hb] at h2
              cases h2
        · by_cases hb : cfg.useAfterEach = true
          · rw [if_pos hb] at h1
            exact hookSteps_shape _ s h1
          · rw [if_neg hb] at h1
            cases h1
  · by_cases hb : cfg.useAfter = true
    · rw [if_pos hb] at hs1
      exact hookSteps_shape _ s hs1
    · rw [if_neg hb] at hs1
      cases hs1

theorem flatMap_nil_of_mem {α β : Type} (l : List α) (f : α → List β)
    (h : l.flatMap f = []) : ∀ a ∈ l, f a = [] := by
  induction l with
  | nil => intro a ha; cases ha
  | cons b rest ih =>
    rw [List.flatMap_cons] at h
    rcases List.append_eq_nil.mp h with ⟨h1, h2⟩
    intro a ha
    rcases List.mem_cons.mp ha with rfl | ha'
    · exact h1
    · exact ih h2 a ha'

theorem flatMap_nil_of_all {α β : Type} (l : List α) (f : α → List β)
    (h : ∀ a ∈ l, f a = []) : l.flatMap f = [] := by
  induction l with
  | nil => rfl
  | cons b rest ih =>
    rw [List.flatMap_cons, h b (by simp), List.nil_append]
    exact ih (fun a ha => h a (by simp [ha]))

/-- C3: force semantics of an up run over its sequence of hook and migration
steps. With `Force = true` every step of the run executes (the trace carries
every step's event), the errors of all failing steps accumulate in step order,
and the result is nil exactly when no step erred. With `Force = false` the run
stops at the first step whose result contains an error: it returns exactly that
step's errors and the trace ends with that step; when no step errs the whole
run executes and returns nil. -/
theorem migrateUp_force_semantics (o : Oracle) (cfg : MigConfig) (w : World)
    (migs : List Migration) (hooks : HooksMap) (fromV toV : Nat)
    (hty : ∀ m ∈ migs, m.mtype = MigrationType.up) :
    (cfg.force = true →
        (migrateUp o cfg w migs hooks fromV toV).2
            = (upSteps cfg migs hooks fromV toV).flatMap (stepErrs o w)
          ∧ (migrateUp o cfg w migs hooks fromV toV).1.trace
              = w.trace ++ (upSteps cfg migs hooks fromV toV).map stepEvent
          ∧ ((migrateUp o cfg w migs hooks fromV toV).2 = []
              ↔ ∀ s ∈ upSteps cfg migs hooks fromV toV, stepErrs o w s = []))
      ∧ (cfg.force = false →
          (∀ pre s post, upSteps cfg migs hooks fromV toV = pre ++ s :: post →
              (∀ t ∈ pre, stepErrs o w t = []) → stepErrs o w s ≠ [] →
              (migrateUp o cfg w migs hooks fromV toV).2 = stepErrs o w s
                ∧ (migrateUp o cfg w migs hooks fromV toV).1.trace
                    = w.trace ++ (pre ++ [s]).map stepEvent)
            ∧ ((∀ s ∈ upSteps cfg migs hooks fromV toV, stepErrs o w s = []) →
                (migrateUp o cfg w migs hooks fromV toV).2 = []
                  ∧ (migrateUp o cfg w migs hooks fromV toV).1.trace
                      = w.trace ++ (upSteps cfg migs hooks fromV toV).map stepEvent)) := by
  have hshape := upSteps_shape cfg migs hooks fromV toV hty
  have hnr : ∀ s ∈ upSteps cfg migs hooks fromV toV, noRollback s :=
    fun s hs => (hshape s hs).1
  have hem : ∀ s ∈ upSteps cfg migs hooks fromV toV, emitsEvent s :=
    fun s hs => (hshape s hs).2
  constructor
  · intro hf
    have hM := migrateUp_steps o cfg w migs hooks fromV toV
    rw [hf] at hM
    refine ⟨?_, ?_, ?_⟩
    · rw [hM]
      exact runSteps_true_errs o _ hnr w
    · rw [hM]
      exact runSteps_true_trace o _ hem w
    · rw [hM]
      have herr := runSteps_true_errs o _ hnr w
      constructor
      · intro h0
        have h0' : (runSteps o true w (upSteps cfg migs hooks fromV toV)).2.1 = [] := h0
        rw [herr] at h0'
        exact flatMap_nil_of_mem _ _ h0'
      · intro hall
        show (runSteps o true w (upSteps cfg migs hooks fromV toV)).2.1 = []
        rw [herr]
        exact flatMap_nil_of_all _ _ hall
  · intro hf
    have hM := migrateUp_steps o cfg w migs hooks fromV toV
    rw [hf] at hM
    constructor
    · intro pre s post hdecomp hpre herr
      have hsin : s ∈ upSteps cfg migs hooks fromV toV := by
        rw [hdecomp]
        simp
      have hnrs : noRollback s := (hshape s hsin).1
      have hpre' : ∀ t ∈ pre, ∀ w', stepErrs o w' t = [] := by
        intro t ht w'
        have htin : t ∈ upSteps cfg migs hooks fromV toV := by
          rw [hdecomp]
          simp [ht]
        rw [stepErrs_const o t (hshape t htin).1 w' w]
        exact hpre t ht
      have hfr := runSteps_first_err o s post hnrs pre w hpre' herr
      constructor
      · rw [hM, hdecomp]
        exact hfr.1
      · rw [hM, hdecomp]
        exact hfr.2
          (fun t ht => (hshape t (by rw [hdecomp]; simp [ht])).2)
          (hshape s hsin).2
    · intro hall
      have hclean : ∀ s ∈ upSteps cfg migs hooks fromV toV, ∀ w',
          stepErrs o w' s = [] := by
        intro s hs w'
        rw [stepErrs_const o s (hshape s hs).1 w' w]
        exact hall s hs
      have hcr := runSteps_clean_run o false _ hclean w
      exact ⟨by rw [hM]; exact hcr.1, by rw [hM]; exact hcr.2 hem⟩

theorem migrateUp_force_semantics_witness :
    (∀ m ∈ [upMig 1], m.mtype = MigrationType.up)
      ∧ (migrateUp Oracle.ok baseCfg (mkWorld []) [upMig 1] noHooks 1 1).2 = []
      ∧ (migrateUp Oracle.ok baseCfg (mkWorld []) [upMig 1] noHooks 1 1).1.trace
          = (mkWorld []).trace
              ++ (upSteps baseCfg [upMig 1] noHooks 1 1).map stepEvent :=
  ⟨by decide,
    ((migrateUp_force_semantics Oracle.ok baseCfg (mkWorld []) [upMig 1] noHooks 1 1
        (by decide)).2 rfl).2 (by decide)⟩

theorem rollbackMigrationRepo_ok (o : Oracle) (w : World) (m : Migration)
    (hty : m.mtype = MigrationType.down)
    (hpres : w.ledger.any (fun e => e.version = m.version) = true)
    (h : ∀ s, o.runStmt s = none) (h3 : ∀ v, o.deleteLedger v = none) :
    rollbackMigrationRepo o w m
      = ({ w with
           ledger := w.ledger.filter (fun e => e.version ≠ m.version),
           trace := w.trace ++ [Event.rollbackEv m.version] }, none) := by
  simp [rollbackMigrationRepo, hty, hpres, h, h3]

theorem downLoop_ok (o : Oracle) (cfg : MigConfig) (hooks : HooksMap)
    (fromV toV : Nat) (migs : List Migration) :
    ∀ w : World, (∀ s, o.runStmt s = none) → (∀ v, o.deleteLedger v = none) →
    (∀ m ∈ migs, m.mtype = MigrationType.down) →
    (migs.map (fun m => m.version)).Nodup →
    (∀ m ∈ migs, ¬(fromV < m.version ∨ toV ≥ m.version) →
        m.version ∈ w.ledger.map (fun e => e.version)) →
    downLoop o cfg hooks fromV toV (w, [], false) migs
      = ({ w with
           ledger := downRunLedger w.ledger migs fromV toV,
           trace := w.trace ++ downRunEvents cfg migs hooks fromV toV }, [], false) := by
  induction migs with
  | nil =>
    intro w _ _ _ _ _
    simp [downLoop, downRunLedger, downRunEvents]
  | cons m rest ih =>
    intro w h h3 hdty hnd hpr
    have hdtym : m.mtype = MigrationType.down := hdty m (by simp)
    have hdtyr : ∀ m' ∈ rest, m'.mtype = MigrationType.down :=
      fun m' hm' => hdty m' (by simp [hm'])
    have hndr : (rest.map (fun m => m.version)).Nodup := by
      rw [List.map_cons] at hnd
      exact hnd.of_cons
    have hvne : ∀ m' ∈ rest, m'.version ≠ m.version := by
      intro m' hm' hv
      rw [List.map_cons] at hnd
      exact (List.nodup_cons.mp hnd).1 (hv ▸ List.mem_map_of_mem _ hm')
    by_cases hin : fromV < m.version ∨ toV ≥ m.version
    · simp only [downLoop, if_pos hin]
      rw [ih w h h3 hdtyr hndr (fun m' hm' hir => hpr m' (by simp [hm']) hir)]
      simp [downRunLedger, downRunEvents, hin]
    · have hany : w.ledger.any (fun e => e.version = m.version) = true := by
        rcases List.mem_map.mp (hpr m (by simp) hin) with ⟨e, he, hv⟩
        exact List.any_eq_true.mpr ⟨e, he, by simp [hv]⟩
      have hrb := rollbackMigrationRepo_ok o w m hdtym hany h h3
      have hpresr : ∀ m' ∈ rest, ¬(fromV < m'.version ∨ toV ≥ m'.version) →
          m'.version ∈ (w.ledger.filter (fun e => !decide (e.version = m.version))).map
            (fun e => e.version) := by
        intro m' hm' hir
        rcases List.mem_map.mp (hpr m' (by simp [hm']) hir) with ⟨e, he, hv⟩
        refine List.mem_map.mpr ⟨e, List.mem_filter.mpr ⟨he, ?_⟩, hv⟩
        have := hvne m' hm'
        simp only [Bool.not_eq_true', decide_eq_false_iff_not]
        rw [hv]
        exact this
      have ihw : ∀ tr : List Event,
          downLoop o cfg hooks fromV toV
            (({ w with
                ledger := w.ledger.filter (fun e => !decide (e.version = m.version)),
                trace := tr } : World), [], false) rest
            = ({ w with
                 ledger := downRunLedger
                   (w.ledger.filter (fun e => !decide (e.version = m.version)))
                   rest fromV toV,
                 trace := tr ++ downRunEvents cfg rest hooks fromV toV }, [], false) :=
        fun tr => ih _ h h3 hdtyr hndr hpresr
      simp only [downLoop, if_neg hin]
      by_cases hb : cfg.useRepeatable ∧ m.version > toV + 1 <;>
        simp [hb, phaseStep, hrb, executeHooks_ok o cfg.force _ _ h, ihw,
          downRunLedger, downRunEvents, downBlockEvents, hin, List.append_assoc]

theorem migrateDown_ok (o : Oracle) (cfg : MigConfig) (w : World)
    (migs : List Migration) (hooks : HooksMap) (fromV toV : Nat)
    (h : ∀ s, o.runStmt s = none) (h3 : ∀ v, o.deleteLedger v = none)
    (hdty : ∀ m ∈ migs, m.mtype = MigrationType.down)
    (hnd : (migs.map (fun m => m.version)).Nodup)
    (hpr : ∀ m ∈ migs, ¬(fromV < m.version ∨ toV ≥ m.version) →
        m.version ∈ w.ledger.map (fun e => e.version)) :
    migrateDown o cfg w migs hooks fromV toV
      = ({ w with
           ledger := downRunLedger w.ledger migs fromV toV,
           trace := w.trace ++ downRunEvents cfg migs hooks fromV toV }, []) := by
  unfold migrateDown
  rw [downLoop_ok o cfg hooks fromV toV migs w h h3 hdty hnd hpr]

theorem eachFollowedBy_append (p q : Event → Bool) (xs ys : List Event)
    (hx : eachFollowedBy p q xs = true) (hy : eachFollowedBy p q ys = true) :
    eachFollowedBy p q (xs ++ ys) = true := by
  induction xs with
  | nil => exact hy
  | cons e xs' ih =>
    simp only [eachFollowedBy, Bool.and_eq_true] at hx
    simp only [List.cons_append, eachFollowedBy, Bool.and_eq_true]
    refine ⟨?_, ih hx.2⟩
    cases hpe : p e with
    | false => simp
    | true =>
      have h1 := hx.1
      rw [hpe] at h1
      simp only [Bool.not_true, Bool.false_or] at h1
      simp [hpe, List.any_append, h1]

theorem eachFollowedBy_of_nop (p q : Event → Bool) (xs : List Event)
    (h : ∀ e ∈ xs, p e = false) : eachFollowedBy p q xs = true := by
  induction xs with
  | nil => rfl
  | cons e xs' ih =>
    simp only [eachFollowedBy, Bool.and_eq_true]
    exact ⟨by simp [h e (by simp)], ih (fun e' he' => h e' (by simp [he']))⟩

theorem eachFollowedBy_append_anyq (p q : Event → Bool) (xs ys : List Event)
    (hq : ys.any q = true) (hy : eachFollowedBy p q ys = true) :
    eachFollowedBy p q (xs ++ ys) = true := by
  induction xs with
  | nil => exact hy
  | cons e xs' ih =>
    simp only [List.cons_append, eachFollowedBy, Bool.and_eq_true]
    exact ⟨by simp [List.any_append, hq], ih⟩

theorem someBeforeFirst_skip (p q : Event → Bool) (xs ys : List Event)
    (h : ∀ e ∈ xs, p e = false ∧ q e = false) :
    someBeforeFirst p q (xs ++ ys) = someBeforeFirst p q ys := by
  induction xs with
  | nil => rfl
  | cons e xs' ih =>
    have he := h e (by simp)
    simp only [List.cons_append, someBeforeFirst, he.1, he.2, Bool.false_eq_true,
      if_false]
    exact ih (fun e' he' => h e' (by simp [he']))

theorem someBeforeFirst_head_p (p q : Event → Bool) (e : Event) (ys : List Event)
    (hp : p e = true) (hq : q e = false) :
    someBeforeFirst p q (e :: ys) = true := by
  simp [someBeforeFirst, hp, hq]

theorem someBeforeFirst_head_q (p q : Event → Bool) (e : Event) (ys : List Event)
    (hq : q e = true) : someBeforeFirst p q (e :: ys) = false := by
  simp [someBeforeFirst, hq]

theorem someBeforeFirst_append_left (p q : Event → Bool) (xs ys : List Event)
    (hx : someBeforeFirst p q xs = true) :
    someBeforeFirst p q (xs ++ ys) = true := by
  induction xs with
  | nil => cases hx
  | cons e xs' ih =>
    simp only [someBeforeFirst] at hx
    simp only [List.cons_append, someBeforeFirst]
    by_cases hqe : q e = true
    · rw [hqe] at hx
      simp at hx
    · rw [if_neg (by simp [hqe])] at hx ⊢
      by_cases hpe : p e = true
      · rw [hpe]
        simp
      · rw [if_neg (by simp [hpe])] at hx ⊢
        exact ih hx

theorem eachPrecededBy_true (p q : Event → Bool) (l : List Event) :
    eachPrecededBy p q true l = true := by
  induction l with
  | nil => rfl
  | cons e l' ih =>
    simp only [eachPrecededBy, Bool.or_true, Bool.true_or, Bool.and_eq_true]
    exact ⟨by simp, by simpa using ih⟩

theorem eachPrecededBy_append (p q : Event → Bool) (xs ys : List Event) :
    ∀ seen, eachPrecededBy p q seen (xs ++ ys)
      = (eachPrecededBy p q seen xs && eachPrecededBy p q (seen || xs.any q) ys) := by
  induction xs with
  | nil => intro seen; simp [eachPrecededBy]
  | cons e xs' ih =>
    intro seen
    simp only [List.cons_append, eachPrecededBy, List.any_cons, List.append_eq,
      ih (seen || q e), Bool.and_assoc, Bool.or_assoc]

theorem hookEvents_mem (hs : List Hook) (e : Event) (he : e ∈ hookEvents hs) :
    ∃ h ∈ hs, e = Event.hookEv h.htype h.order := by
  simp only [hookEvents, List.mem_map] at he
  obtain ⟨h, hh, rfl⟩ := he
  exact ⟨h, hh, rfl⟩

theorem mem_if_hookEvents (c : Prop) [Decidable c] (hs : List Hook) (e : Event)
    (he : e ∈ if c then hookEvents hs else []) : e ∈ hookEvents hs := by
  by_cases hc : c
  · rwa [if_pos hc] at he
  · rw [if_neg hc] at he
    cases he

theorem hookEvents_filter_sub (hs : List Hook) (p : Hook → Bool) (e : Event)
    (he : e ∈ hookEvents (hs.filter p)) : e ∈ hookEvents hs := by
  obtain ⟨h, hh, rfl⟩ := hookEvents_mem _ e he
  simp only [hookEvents, List.mem_map]
  exact ⟨h, (List.mem_filter.mp hh).1, rfl⟩

theorem hookEvents_not_mig (hs : List Hook) : ∀ e ∈ hookEvents hs, isMigEv e = false := by
  intro e he
  obtain ⟨h, _, rfl⟩ := hookEvents_mem hs e he
  rfl

theorem hookEvents_not_rep (hooks : HooksMap) (hwf : HooksMap.WF hooks) (t : HookType)
    (ht : t ≠ HookType.repeatable) :
    ∀ e ∈ hookEvents (hooks t), isRepEv e = false := by
  intro e he
  obtain ⟨h, hh, rfl⟩ := hookEvents_mem _ e he
  rw [hwf t h hh]
  cases t
  all_goals first | rfl | exact absurd rfl ht

theorem firstInRange_cons (m : Migration) (rest : List Migration) (fromV toV : Nat) :
    firstInRange (m :: rest) fromV toV
      = if fromV ≤ m.version ∧ m.version ≤ toV then some m
        else firstInRange rest fromV toV := by
  unfold firstInRange
  by_cases hin : fromV ≤ m.version ∧ m.version ≤ toV
  · rw [if_pos hin]
    apply List.find?_cons_of_pos
    simp [hin.1, hin.2]
  · rw [if_neg hin]
    apply List.find?_cons_of_neg
    simp only [Bool.and_eq_true, decide_eq_true_eq]
    exact fun hc => hin hc

theorem upBlockEvents_repClosed (cfg : MigConfig) (hooks : HooksMap) (m : Migration)
    (hwf : HooksMap.WF hooks) :
    eachFollowedBy isRepEv isMigEv (upBlockEvents cfg hooks m) = true := by
  unfold upBlockEvents
  simp only [List.append_assoc, List.singleton_append]
  apply eachFollowedBy_append_anyq
  · simp [List.any_append, List.any_cons, isMigEv]
  · apply eachFollowedBy_of_nop
    intro e he
    rcases List.mem_append.mp he with h2 | h'
    · exact hookEvents_not_rep hooks hwf HookType.beforeEach (by simp) e
        (mem_if_hookEvents _ _ e h2)
    rcases List.mem_append.mp h' with h3 | h''
    · exact hookEvents_not_rep hooks hwf HookType.beforeVersion (by simp) e
        (hookEvents_filter_sub _ _ e (mem_if_hookEvents _ _ e h3))
    rcases List.mem_cons.mp h'' with rfl | h4
    · rfl
    rcases List.mem_append.mp h4 with h5 | h6
    · exact hookEvents_not_rep hooks hwf HookType.afterVersion (by simp) e
        (hookEvents_filter_sub _ _ e (mem_if_hookEvents _ _ e h5))
    · exact hookEvents_not_rep hooks hwf HookType.afterEach (by simp) e
        (mem_if_hookEvents _ _ e h6)

theorem upFlat_repClosed (cfg : MigConfig) (hooks : HooksMap) (fromV toV : Nat)
    (hwf : HooksMap.WF hooks) (migs : List Migration) :
    eachFollowedBy isRepEv isMigEv (migs.flatMap (fun m =>
      if m.version < fromV ∨ m.version > toV then [] else upBlockEvents cfg hooks m))
      = true := by
  induction migs with
  | nil => rfl
  | cons m rest ih =>
    rw [List.flatMap_cons]
    refine eachFollowedBy_append _ _ _ _ ?_ ih
    by_cases hc : m.version < fromV ∨ m.version > toV
    · rw [if_pos hc]; rfl
    · rw [if_neg hc]
      exact upBlockEvents_repClosed cfg hooks m hwf

theorem upRunEvents_repClosed (cfg : MigConfig) (migs : List Migration)
    (hooks : HooksMap) (fromV toV : Nat) (hwf : HooksMap.WF hooks) :
    eachFollowedBy isRepEv isMigEv (upRunEvents cfg migs hooks fromV toV) = true := by
  unfold upRunEvents
  refine eachFollowedBy_append _ _ _ _ (eachFollowedBy_append _ _ _ _ ?_ ?_) ?_
  · apply eachFollowedBy_of_nop
    intro e he
    exact hookEvents_not_rep hooks hwf HookType.before (by simp) e
      (mem_if_hookEvents _ _ e he)
  · exact upFlat_repClosed cfg hooks fromV toV hwf migs
  · apply eachFollowedBy_of_nop
    intro e he
    exact hookEvents_not_rep hooks hwf HookType.after (by simp) e
      (mem_if_hookEvents _ _ e he)

theorem upFlat_someBefore (cfg : MigConfig) (hooks : HooksMap) (fromV toV : Nat)
    (hwf : HooksMap.WF hooks) (hrep : cfg.useRepeatable = true)
    (hne : hooks HookType.repeatable ≠ []) :
    ∀ (migs : List Migration) (m0 : Migration),
      firstInRange migs fromV toV = some m0 → 1 < m0.version →
      someBeforeFirst isRepEv isMigEv (migs.flatMap (fun m =>
        if m.version < fromV ∨ m.version > toV then [] else upBlockEvents cfg hooks m))
        = true := by
  intro migs
  induction migs with
  | nil =>
    intro m0 hf
    simp [firstInRange] at hf
  | cons m rest ih =>
    intro m0 hf h1
    rw [firstInRange_cons] at hf
    rw [List.flatMap_cons]
    by_cases hin : fromV ≤ m.version ∧ m.version ≤ toV
    · rw [if_pos hin] at hf
      injection hf with hf
      subst hf
      have hcr : ¬(m.version < fromV ∨ m.version > toV) := by omega
      rw [if_neg hcr]
      unfold upBlockEvents
      rw [if_pos (show cfg.useRepeatable ∧ m.version > 1 from ⟨hrep, h1⟩)]
      obtain ⟨h0, hs', heq⟩ := List.exists_cons_of_ne_nil hne
      rw [heq]
      simp only [hookEvents, List.map_cons, List.append_assoc, List.cons_append]
      apply someBeforeFirst_head_p
      · rw [hwf HookType.repeatable h0 (by rw [heq]; exact List.mem_cons_self h0 hs')]
        rfl
      · rfl
    · rw [if_neg hin] at hf
      have hcr : m.version < fromV ∨ m.version > toV := by omega
      rw [if_pos hcr, List.nil_append]
      exact ih m0 hf h1

theorem upRunEvents_someBefore (cfg : MigConfig) (migs : List Migration)
    (hooks : HooksMap) (fromV toV : Nat) (hwf : HooksMap.WF hooks) (m0 : Migration)
    (hf : firstInRange migs fromV toV = some m0) (h1 : 1 < m0.version)
    (hrep : cfg.useRepeatable = true) (hne : hooks HookType.repeatable ≠ []) :
    someBeforeFirst isRepEv isMigEv (upRunEvents cfg migs hooks fromV toV) = true := by
  unfold upRunEvents
  rw [List.append_assoc]
  have hbef : ∀ e ∈ (if cfg.useBefore then hookEvents (hooks HookType.before) else []),
      isRepEv e = false ∧ isMigEv e = false := by
    intro e he
    have hm := mem_if_hookEvents _ _ e he
    exact ⟨hookEvents_not_rep hooks hwf HookType.before (by simp) e hm,
      hookEvents_not_mig _ e hm⟩
  rw [someBeforeFirst_skip _ _ _ _ hbef]
  exact someBeforeFirst_append_left _ _ _ _
    (upFlat_someBefore cfg hooks fromV toV hwf hrep hne migs m0 hf h1)

theorem upFlat_noneBefore (cfg : MigConfig) (hooks : HooksMap) (fromV toV : Nat)
    (hwf : HooksMap.WF hooks) :
    ∀ (migs : List Migration) (m0 : Migration) (tailEvs : List Event),
      firstInRange migs fromV toV = some m0 → m0.version = 1 →
      someBeforeFirst isRepEv isMigEv ((migs.flatMap (fun m =>
        if m.version < fromV ∨ m.version > toV then [] else upBlockEvents cfg hooks m))
        ++ tailEvs) = false := by
  intro migs
  induction migs with
  | nil =>
    intro m0 tailEvs hf
    simp [firstInRange] at hf
  | cons m rest ih =>
    intro m0 tailEvs hf hv1
    rw [firstInRange_cons] at hf
    rw [List.flatMap_cons]
    by_cases hin : fromV ≤ m.version ∧ m.version ≤ toV
    · rw [if_pos hin] at hf
      injection hf with hf
      subst hf
      have hcr : ¬(m.version < fromV ∨ m.version > toV) := by omega
      rw [if_neg hcr]
      unfold upBlockEvents
      rw [if_neg (show ¬(cfg.useRepeatable ∧ m.version > 1) by
        rintro ⟨_, hgt⟩; omega)]
      simp only [List.nil_append, List.append_assoc, List.singleton_append,
        List.cons_append]
      have hsk2 : ∀ e ∈ (if cfg.useBeforeEach then hookEvents (hooks HookType.beforeEach)
          else []), isRepEv e = false ∧ isMigEv e = false := by
        intro e he
        have hm := mem_if_hookEvents _ _ e he
        exact ⟨hookEvents_not_rep hooks hwf HookType.beforeEach (by simp) e hm,
          hookEvents_not_mig _ e hm⟩
      have hsk3 : ∀ e ∈ (if cfg.useBeforeVersion then
            hookEvents ((hooks HookType.beforeVersion).filter
              (fun h => m.version = h.version)) else []),
          isRepEv e = false ∧ isMigEv e = false := by
        intro e he
        have hm := hookEvents_filter_sub _ _ e (mem_if_hookEvents _ _ e he)
        exact ⟨hookEvents_not_rep hooks hwf HookType.beforeVersion (by simp) e hm,
          hookEvents_not_mig _ e hm⟩
      rw [someBeforeFirst_skip _ _ _ _ hsk2, someBeforeFirst_skip _ _ _ _ hsk3]
      exact someBeforeFirst_head_q _ _ _ _ rfl
    · rw [if_neg hin] at hf
      have hcr : m.version < fromV ∨ m.version > toV := by omega
      rw [if_pos hcr, List.nil_append]
      exact ih m0 tailEvs hf hv1

theorem upRunEvents_noneBefore (cfg : MigConfig) (migs : List Migration)
    (hooks : HooksMap) (fromV toV : Nat) (hwf : HooksMap.WF hooks) (m0 : Migration)
    (hf : firstInRange migs fromV toV = some m0) (hv1 : m0.version = 1) :
    someBeforeFirst isRepEv isMigEv (upRunEvents cfg migs hooks fromV toV) = false := by
  unfold upRunEvents
  rw [List.append_assoc]
  have hbef : ∀ e ∈ (if cfg.useBefore then hookEvents (hooks HookType.before) else []),
      isRepEv e = false ∧ isMigEv e = false := by
    intro e he
    have hm := mem_if_hookEvents _ _ e he
    exact ⟨hookEvents_not_rep hooks hwf HookType.before (by simp) e hm,
      hookEvents_not_mig _ e hm⟩
  rw [someBeforeFirst_skip _ _ _ _ hbef]
  exact upFlat_noneBefore cfg hooks fromV toV hwf migs m0 _ hf hv1

theorem downRunEvents_repDownPreceded (cfg : MigConfig) (hooks : HooksMap)
    (fromV toV : Nat) (seen : Bool) (migs : List Migration) :
    eachPrecededBy isRepDownEv isRollbackEv seen
      (downRunEvents cfg migs hooks fromV toV) = true := by
  unfold downRunEvents
  induction migs with
  | nil => rfl
  | cons m rest ih =>
    rw [List.flatMap_cons]
    by_cases hc : fromV < m.version ∨ toV ≥ m.version
    · rw [if_pos hc, List.nil_append]
      exact ih
    · rw [if_neg hc, eachPrecededBy_append]
      have hrb : isRollbackEv (Event.rollbackEv m.version) = true := rfl
      have hrd : isRepDownEv (Event.rollbackEv m.version) = false := rfl
      simp [downBlockEvents, eachPrecededBy, hrb, hrd, eachPrecededBy_true]

theorem downFlat_any_rb (cfg : MigConfig) (hooks : HooksMap) (fromV toV : Nat) :
    ∀ (migs : List Migration), (∃ m ∈ migs, ¬(fromV < m.version ∨ toV ≥ m.version)) →
    ((migs.flatMap (fun m => if fromV < m.version ∨ toV ≥ m.version then []
        else downBlockEvents cfg hooks toV m)).any isRollbackEv) = true := by
  intro migs
  induction migs with
  | nil =>
    rintro ⟨m, hm, _⟩
    cases hm
  | cons m rest ih =>
    rintro ⟨m', hm', hr'⟩
    rw [List.flatMap_cons, List.any_append]
    rcases List.mem_cons.mp hm' with rfl | hmem
    · rw [if_neg hr']
      simp [downBlockEvents, isRollbackEv]
    · have hr := ih ⟨m', hmem, hr'⟩
      simp [hr]

theorem downRunEvents_repDownClosed (cfg : MigConfig) (hooks : HooksMap)
    (fromV toV : Nat) :
    ∀ (migs : List Migration),
      List.Pairwise (fun a b => a > b) (migs.map (fun m => m.version)) →
      (toV + 1) ∈ migs.map (fun m => m.version) → toV + 1 ≤ fromV →
      eachFollowedBy isRepDownEv isRollbackEv
        (downRunEvents cfg migs hooks fromV toV) = true := by
  intro migs
  induction migs with
  | nil =>
    intro _ hm _
    simp at hm
  | cons m rest ih =>
    intro hpw hmem hle
    simp only [List.map_cons, List.pairwise_cons] at hpw
    simp only [List.map_cons] at hmem
    unfold downRunEvents
    rw [List.flatMap_cons]
    by_cases hc : fromV < m.version ∨ toV ≥ m.version
    · rw [if_pos hc, List.nil_append]
      have hmem' : toV + 1 ∈ rest.map (fun m => m.version) := by
        rcases List.mem_cons.mp hmem with heq | h
        · exfalso
          rcases hc with h1 | h1 <;> omega
        · exact h
      have := ih hpw.2 hmem' hle
      unfold downRunEvents at this
      exact this
    · rw [if_neg hc]
      by_cases hv : m.version = toV + 1
      · have hrest : rest.flatMap (fun m => if fromV < m.version ∨ toV ≥ m.version
            then [] else downBlockEvents cfg hooks toV m) = [] := by
          apply flatMap_nil_of_all
          intro a ha
          have hgt := hpw.1 a.version (List.mem_map.mpr ⟨a, ha, rfl⟩)
          rw [if_pos]
          right
          omega
        rw [hrest, List.append_nil]
        unfold downBlockEvents
        rw [if_neg (show ¬(cfg.useRepeatable ∧ m.version > toV + 1) by
          rintro ⟨_, hgt⟩; omega)]
        simp [eachFollowedBy, isRepDownEv]
      · have hmem' : toV + 1 ∈ rest.map (fun m => m.version) := by
          rcases List.mem_cons.mp hmem with heq | h
          · exact absurd heq.symm hv
          · exact h
        apply eachFollowedBy_append_anyq
        · obtain ⟨m', hm', hv'⟩ := List.mem_map.mp hmem'
          apply downFlat_any_rb
          refine ⟨m', hm', ?_⟩
          rw [hv']
          rintro (h1 | h1) <;> omega
        · have := ih hpw.2 hmem' hle
          unfold downRunEvents at this
          exact this

/-- C6 counterexample: a run with Repeatable hooks enabled over a ledger
already at version 2, local set 1..3, destination 3. The run's only migration
is version 3, yet the Repeatable hook fires before it — the guard in
`migrateUp` is `migration.Version > 1`, a global version test, not "after the
first migration applied this run". With all other hook kinds disabled the
whole trace is `[repeatable hook, migration 3]`, so a Repeatable hook does
fire before the first migration applied in the run. -/
theorem repeatable_before_first_counterexample :
    (migrate Oracle.ok
        { baseCfg with
          destination := some 3, useBefore := false, useAfter := false,
          useBeforeEach := false, useAfterEach := false, useBeforeVersion := false,
          useAfterVersion := false }
        (mkWorld [okRow 1, okRow 2]) [upMig 1, upMig 2, upMig 3] [] repHooks).world.trace
      = [Event.hookEv HookType.repeatable 1, Event.migEv 3]
    ∧ someBeforeFirst isRepEv isMigEv
        (migrate Oracle.ok
          { baseCfg with
            destination := some 3, useBefore := false, useAfter := false,
            useBeforeEach := false, useAfterEach := false, useBeforeVersion := false,
            useAfterVersion := false }
          (mkWorld [okRow 1, okRow 2]) [upMig 1, upMig 2, upMig 3] [] repHooks).world.trace
      = true := by
  refine ⟨?_, ?_⟩ <;> decide

/-- C6 (amended): boundary behaviour of Repeatable/RepeatableDown hooks in a
clean run (all statements succeed, hooks keyed by their own type, up
migrations typed Up with empty starting trace; down migrations typed Down with
duplicate-free versions all present in the ledger). Up direction: (1) every
Repeatable hook event is followed by a later migration event — no Repeatable
hook fires after the last migration of the run; (2) if the first in-range
migration has Version > 1 and Repeatable hooks are enabled and present, a
Repeatable hook DOES fire before the first migration applied this run (the
guard is the global `Version > 1`, not "first of this run"); (3) only when the
first in-range migration is version 1 is the Repeatable hook suppressed before
the first migration. Down direction: (4) no RepeatableDown hook fires before
the first rollback of the run; (5) when the rolled-back versions are strictly
descending and version toV+1 (the last one rolled back) is among them, every
RepeatableDown hook event is followed by a later rollback event — none fires
after the last rollback. -/
theorem repeatable_hook_boundaries
    (o : Oracle) (cfg : MigConfig) (w w' : World) (migs dmigs : List Migration)
    (hooks : HooksMap) (fromV toV dFrom dTo : Nat)
    (h : ∀ s, o.runStmt s = none) (h2 : ∀ v, o.writeLedger v = none)
    (h3 : ∀ v, o.deleteLedger v = none) (hwf : HooksMap.WF hooks)
    (hty : ∀ m ∈ migs, m.mtype = MigrationType.up)
    (hw : w.trace = [])
    (hdty : ∀ m ∈ dmigs, m.mtype = MigrationType.down)
    (hdnd : (dmigs.map (fun m => m.version)).Nodup)
    (hdpr : ∀ m ∈ dmigs, ¬(dFrom < m.version ∨ dTo ≥ m.version) →
        m.version ∈ w'.ledger.map (fun e => e.version))
    (hw' : w'.trace = []) :
    eachFollowedBy isRepEv isMigEv
        (migrateUp o cfg w migs hooks fromV toV).1.trace = true
    ∧ (∀ m0, firstInRange migs fromV toV = some m0 → 1 < m0.version →
        cfg.useRepeatable = true → hooks HookType.repeatable ≠ [] →
        someBeforeFirst isRepEv isMigEv
          (migrateUp o cfg w migs hooks fromV toV).1.trace = true)
    ∧ (∀ m0, firstInRange migs fromV toV = some m0 → m0.version = 1 →
        someBeforeFirst isRepEv isMigEv
          (migrateUp o cfg w migs hooks fromV toV).1.trace = false)
    ∧ eachPrecededBy isRepDownEv isRollbackEv false
        (migrateDown o cfg w' dmigs hooks dFrom dTo).1.trace = true
    ∧ (List.Pairwise (fun a b => a > b) (dmigs.map (fun m => m.version)) →
        (dTo + 1) ∈ dmigs.map (fun m => m.version) → dTo + 1 ≤ dFrom →
        eachFollowedBy isRepDownEv isRollbackEv
          (migrateDown o cfg w' dmigs hooks dFrom dTo).1.trace = true) := by
  have hup := migrateUp_ok o cfg w migs hooks fromV toV h h2 hty
  have hdn := migrateDown_ok o cfg w' dmigs hooks dFrom dTo h h3 hdty hdnd hdpr
  have htr : (migrateUp o cfg w migs hooks fromV toV).1.trace
      = upRunEvents cfg migs hooks fromV toV := by
    rw [hup]
    simp [hw]
  have htr' : (migrateDown o cfg w' dmigs hooks dFrom dTo).1.trace
      = downRunEvents cfg dmigs hooks dFrom dTo := by
    rw [hdn]
    simp [hw']
  refine ⟨?_, ?_, ?_, ?_, ?_⟩
  · rw [htr]
    exact upRunEvents_repClosed cfg migs hooks fromV toV hwf
  · intro m0 hf h1 hrep hne
    rw [htr]
    exact upRunEvents_someBefore cfg migs hooks fromV toV hwf m0 hf h1 hrep hne
  · intro m0 hf hv1
    rw [htr]
    exact upRunEvents_noneBefore cfg migs hooks fromV toV hwf m0 hf hv1
  · rw [htr']
    exact downRunEvents_repDownPreceded cfg hooks dFrom dTo false dmigs
  · intro hpw hmem hle
    rw [htr']
    exact downRunEvents_repDownClosed cfg hooks dFrom dTo dmigs hpw hmem hle

/-- C6 witness: the amended boundary theorem applied to a concrete clean run —
up from version 1 to destination 3 over migrations 2 and 3 with a single
Repeatable hook (a Repeatable event precedes the first migration), and down
from version 3 to destination 1 rolling back versions 3 and 2. -/
theorem repeatable_hook_boundaries_witness :
    eachFollowedBy isRepEv isMigEv
      (migrateUp Oracle.ok baseCfg (mkWorld []) [upMig 2, upMig 3]
        repHooks 2 3).1.trace = true
    ∧ someBeforeFirst isRepEv isMigEv
      (migrateUp Oracle.ok baseCfg (mkWorld []) [upMig 2, upMig 3]
        repHooks 2 3).1.trace = true
    ∧ eachPrecededBy isRepDownEv isRollbackEv false
      (migrateDown Oracle.ok baseCfg (mkWorld [okRow 1, okRow 2, okRow 3])
        [downMig 3, downMig 2] repHooks 3 1).1.trace = true
    ∧ eachFollowedBy isRepDownEv isRollbackEv
      (migrateDown Oracle.ok baseCfg (mkWorld [okRow 1, okRow 2, okRow 3])
        [downMig 3, downMig 2] repHooks 3 1).1.trace = true := by
  obtain ⟨c1, c2, c3, c4, c5⟩ := repeatable_hook_boundaries Oracle.ok baseCfg
    (mkWorld []) (mkWorld [okRow 1, okRow 2, okRow 3]) [upMig 2, upMig 3]
    [downMig 3, downMig 2] repHooks 2 3 3 1
    (fun _ => rfl) (fun _ => rfl) (fun _ => rfl)
    (by intro t hk hh; cases t <;> simp_all [repHooks])
    (by decide) rfl (by decide) (by decide) (by decide) rfl
  exact ⟨c1, c2 (upMig 2) rfl (by decide) rfl (by decide), c4,
    c5 (by decide) (by decide) (by decide)⟩

end Maestro
